import Mathlib

/-!
# knitter: string-art path generation

A shallow embedding of `knitter.cpp` and a verification of its line rasteriser
(`linePixels`), scorer (`lineScore`), field mutator (`reduceLine`), greedy hook
selection (`nextHook`) and the string loop of `main`.

Modelling conventions.

* `cv::Point` is a pair of integers.  The C++ `int` coordinates and error terms are
  modelled by `Int`.  Signed overflow is undefined behaviour in C++; `linePixelsFuel32`
  runs the rasteriser with checked 32-bit arithmetic and is shown to agree with the
  integer model for all coordinates in `[-2 ^ 28, 2 ^ 28]`.
* `cv::Mat` (one channel, `CV_8U`) is a row-major list of pixel values together with its
  dimensions.  `image.at<uchar>(y, x)` is a checked access: an index outside the matrix
  yields `none` (the debug assertion of OpenCV), every function built on it is fallible.
* `unsigned long` scores are natural numbers reduced modulo `2 ^ 64` (the LP64 width) at
  every addition.
* The `while (1)` loop of `linePixels` is a fuel-indexed recursion; running out of fuel
  is `none`.  `linePixels` itself runs the loop with the fuel that is proved sufficient.
* The floating-point operations of `calcHooks` (`float` arithmetic, `std::cos`, `std::sin`)
  are parameters of the embedding.  What is assumed of them is stated where it is used:
  exactness at angle `0` below `2 ^ 24`, and truncation on conversion to `int` of a value
  in the range of `int`.  `binary32Env` and `eighthEnv` are concrete instances.
-/

set_option autoImplicit false
set_option maxRecDepth 100000

namespace Knitter

/-! ## Data model -/

/-- Integer pixel coordinate, `cv::Point`. -/
structure Point where
  x : Int
  y : Int
deriving DecidableEq

/-- Single-channel 8-bit image, `cv::Mat` of type `CV_8U`, stored row by row. -/
structure Mat where
  rows : Nat
  cols : Nat
  data : List Nat
deriving DecidableEq

/-- Well-formed image: the buffer has `rows * cols` entries, every entry is a `uchar`,
and both dimensions fit the `int` fields of `cv::Mat`. -/
@[reducible] def Mat.WF (m : Mat) : Prop :=
  m.data.length = m.rows * m.cols ∧ (∀ v ∈ m.data, v ≤ 255) ∧
    m.rows < 2 ^ 31 ∧ m.cols < 2 ^ 31

/-- The index pair `(y, x)` addresses a pixel of the image. -/
@[reducible] def Mat.inside (m : Mat) (y x : Int) : Prop :=
  0 ≤ y ∧ y < (m.rows : Int) ∧ 0 ≤ x ∧ x < (m.cols : Int)

/-- A point lies inside the image. -/
@[reducible] def Mat.contains (m : Mat) (p : Point) : Prop :=
  m.inside p.y p.x

/-- Read access `image.at<uchar>(y, x)`; `none` outside the image. -/
def Mat.read (m : Mat) (y x : Int) : Option Nat :=
  if m.inside y x then m.data[y.toNat * m.cols + x.toNat]? else none

/-- Write access `image.at<uchar>(y, x) = v`; `none` outside the image. -/
def Mat.write (m : Mat) (y x : Int) (v : Nat) : Option Mat :=
  if m.inside y x then
    some { m with data := m.data.set (y.toNat * m.cols + x.toNat) v }
  else none

/-- Sum of all pixel values of the image. -/
def Mat.total (m : Mat) : Nat :=
  m.data.sum

/-! ## calcHooks -/

/-- The floating-point operations `calcHooks` relies on, supplied by the C++ implementation
and the math library: the `float` values, the conversions from `int` and `unsigned int`,
the value of `2.0 * M_PI / number` as a `float`, product, sum, `std::cos`, `std::sin` and the
conversion of a `float` to `int`. -/
structure FloatEnv where
  Val : Type
  ofInt : Int → Val
  ofNat : Nat → Val
  angle : Nat → Val
  mul : Val → Val → Val
  add : Val → Val → Val
  cos : Val → Val
  sin : Val → Val
  toInt : Val → Int

/-- The `int` assigned to `hook.x`: `center.x + radius * std::cos(angle * i)`. -/
def FloatEnv.hookX (F : FloatEnv) (centerX : Int) (radius number i : Nat) : Int :=
  F.toInt (F.add (F.ofInt centerX)
    (F.mul (F.ofNat radius) (F.cos (F.mul (F.angle number) (F.ofNat i)))))

/-- The `int` assigned to `hook.y`: `center.y + radius * std::sin(angle * i)`. -/
def FloatEnv.hookY (F : FloatEnv) (centerY : Int) (radius number i : Nat) : Int :=
  F.toInt (F.add (F.ofInt centerY)
    (F.mul (F.ofNat radius) (F.sin (F.mul (F.angle number) (F.ofNat i)))))

/-- At `i = 0` the angle is `0`, `std::cos` gives `1` and `std::sin` gives `0`, and below
`2 ^ 24` the `float` sum `center + radius` is exact. -/
def FloatEnv.ExactAtZero (F : FloatEnv) : Prop :=
  ∀ (c : Int) (radius number : Nat), 0 < number → (c.natAbs + radius < 2 ^ 24) →
    F.hookX c radius number 0 = c + radius ∧ F.hookY c radius number 0 = c

/-- The `float` value `center.x + radius * std::cos(angle * i)` before it is assigned to the
`int` field `hook.x`. -/
def FloatEnv.hookXVal (F : FloatEnv) (centerX : Int) (radius number i : Nat) : F.Val :=
  F.add (F.ofInt centerX) (F.mul (F.ofNat radius) (F.cos (F.mul (F.angle number) (F.ofNat i))))

/-- The `float` value `center.y + radius * std::sin(angle * i)` before it is assigned to the
`int` field `hook.y`. -/
def FloatEnv.hookYVal (F : FloatEnv) (centerY : Int) (radius number i : Nat) : F.Val :=
  F.add (F.ofInt centerY) (F.mul (F.ofNat radius) (F.sin (F.mul (F.angle number) (F.ofNat i))))

/-- The conversion of a `float` to `int` discards the fractional part (truncation toward
zero) whenever the truncated value fits the 32-bit `int`, that is for values strictly
between `-2 ^ 31 - 1` and `2 ^ 31`; outside that range the conversion is undefined and nothing
is assumed.  `val` gives the number a `float` value stands for. -/
def FloatEnv.Truncates (F : FloatEnv) (val : F.Val → ℚ) : Prop :=
  ∀ v : F.Val, -(2 : ℚ) ^ 31 - 1 < val v → val v < (2 : ℚ) ^ 31 →
    (0 ≤ val v → ((F.toInt v : Int) : ℚ) ≤ val v ∧ val v < ((F.toInt v : Int) : ℚ) + 1) ∧
    (val v ≤ 0 → val v ≤ ((F.toInt v : Int) : ℚ) ∧ ((F.toInt v : Int) : ℚ) - 1 < val v)

/-- Coordinates of the hooks on the circle, `calcHooks`. -/
def calcHooks (F : FloatEnv) (number : Nat) (center : Point) (radius : Nat) : List Point :=
  (List.range number).map fun i =>
    { x := F.hookX center.x radius number i, y := F.hookY center.y radius number i }

/-- The hooks as `main` derives them from the side `size` of the image:
`center = (size / 2, size / 2)` and `radius = size / 2`, integer division. -/
def mainHooks (F : FloatEnv) (size hookCount : Nat) : List Point :=
  calcHooks F hookCount { x := ((size / 2 : Nat) : Int), y := ((size / 2 : Nat) : Int) } (size / 2)

/-! ## linePixels -/

/-- The `while (1)` loop of `linePixels`, started at `a` with error term `e`. -/
def linePixelsLoop (dx dy sx sy : Int) (b : Point) : Nat → Point → Int → Option (List Point)
  | 0, _, _ => none
  | fuel + 1, a, e =>
    if a.x = b.x ∧ a.y = b.y then some [a]
    else
      let e2 := 2 * e
      let e1 := if e2 > dy then e + dy else e
      let ax := if e2 > dy then a.x + sx else a.x
      let e3 := if e2 < dx then e1 + dx else e1
      let ay := if e2 < dx then a.y + sy else a.y
      (linePixelsLoop dx dy sx sy b fuel { x := ax, y := ay } e3).map (fun pts => a :: pts)

/-- The function `linePixels` with an explicit bound on the number of loop iterations. -/
def linePixelsFuel (fuel : Nat) (a b : Point) : Option (List Point) :=
  let dx : Int := |b.x - a.x|
  let dy : Int := -|b.y - a.y|
  let sx : Int := if a.x < b.x then 1 else -1
  let sy : Int := if a.y < b.y then 1 else -1
  linePixelsLoop dx dy sx sy b fuel a (dx + dy)

/-- Pixels a line from `a` to `b` passes through, `linePixels`. -/
def linePixels (a b : Point) : List Point :=
  (linePixelsFuel ((b.x - a.x).natAbs + (b.y - a.y).natAbs + 1) a b).getD []

/-! ## lineScore and reduceLine -/

/-- The `for` loop of `lineScore`. -/
def lineScoreLoop (image : Mat) : List Point → Nat → Option Nat
  | [], score => some score
  | p :: ps, score =>
    match image.read p.y p.x with
    | none => none
    | some v => lineScoreLoop image ps ((score + (0xff - v)) % 2 ^ 64)

/-- Score of a line from `a` to `b`, `lineScore`. -/
def lineScore (image : Mat) (a b : Point) : Option Nat :=
  lineScoreLoop image (linePixels a b) 0

/-- The `for` loop of `reduceLine`. -/
def reduceLineLoop : Mat → List Point → Option Mat
  | image, [] => some image
  | image, p :: ps =>
    match image.write p.y p.x 0xff with
    | none => none
    | some image1 => reduceLineLoop image1 ps

/-- Set the pixels of the line from `a` to `b` to white, `reduceLine`. -/
def reduceLine (image : Mat) (a b : Point) : Option Mat :=
  reduceLineLoop image (linePixels a b)

/-! ## nextHook and the string loop of main -/

/-- The `for` loop of `nextHook` over the hooks not yet visited, which start at index `i`. -/
def nextHookLoop (mat : Mat) (cur : Point) : List Point → Nat → Nat → Nat → Option Nat
  | [], _, _, next => some next
  | h :: hs, i, maxScore, next =>
    match lineScore mat cur h with
    | none => none
    | some score =>
      if score > maxScore then nextHookLoop mat cur hs (i + 1) score i
      else nextHookLoop mat cur hs (i + 1) maxScore next

/-- Index of the hook with the maximum score from the current hook, `nextHook`. -/
def nextHook (current : Nat) (hooks : List Point) (mat : Mat) : Option Nat :=
  if hooks = [] then some 0
  else
    match hooks[current]? with
    | none => none
    | some cur => nextHookLoop mat cur hooks 0 0 0

/-- One iteration of the string loop of `main`: choose the next hook and whiten the chord. -/
def stringStep (hooks : List Point) (current : Nat) (img : Mat) : Option (Nat × Mat) :=
  match nextHook current hooks img with
  | none => none
  | some next =>
    match hooks[current]?, hooks[next]? with
    | some a, some b =>
      match reduceLine img a b with
      | none => none
      | some img1 => some (next, img1)
    | _, _ => none

/-- The string loop of `main`, run `n` times from hook `current`: the hooks printed and the
final image. -/
def stringLoop (hooks : List Point) : Nat → Nat → Mat → Option (List Nat × Mat)
  | 0, _, img => some ([], img)
  | n + 1, current, img =>
    match stringStep hooks current img with
    | none => none
    | some (next, img1) =>
      match stringLoop hooks n next img1 with
      | none => none
      | some (rest, out) => some (next :: rest, out)

/-- The path of a run: hook `0` followed by the hooks chosen in the `stringCount` iterations,
and the final image. -/
def buildPath (stringCount : Nat) (hooks : List Point) (img : Mat) : Option (List Nat × Mat) :=
  match stringLoop hooks stringCount 0 img with
  | none => none
  | some (path, out) => some (0 :: path, out)

/-! ## linePixels with checked 32-bit arithmetic -/

/-- A value of C++ type `int` (32 bits): `none` when the mathematical result does not fit,
which is where the C++ program has undefined behaviour. -/
def int32 (z : Int) : Option Int :=
  if -2 ^ 31 ≤ z ∧ z < 2 ^ 31 then some z else none

/-- The loop of `linePixels` with every `int` operation checked for overflow. -/
def linePixelsLoop32 (dx dy sx sy : Int) (b : Point) : Nat → Point → Int → Option (List Point)
  | 0, _, _ => none
  | fuel + 1, a, e =>
    if a.x = b.x ∧ a.y = b.y then some [a]
    else
      match int32 (2 * e) with
      | none => none
      | some e2 =>
        match (if e2 > dy then int32 (e + dy) else some e),
            (if e2 > dy then int32 (a.x + sx) else some a.x) with
        | some e1, some ax =>
          match (if e2 < dx then int32 (e1 + dx) else some e1),
              (if e2 < dx then int32 (a.y + sy) else some a.y) with
          | some e3, some ay =>
            (linePixelsLoop32 dx dy sx sy b fuel { x := ax, y := ay } e3).map
              (fun pts => a :: pts)
          | _, _ => none
        | _, _ => none

/-- The function `linePixels` with every `int` operation checked for overflow. -/
def linePixelsFuel32 (fuel : Nat) (a b : Point) : Option (List Point) :=
  match int32 (b.x - a.x), int32 (b.y - a.y) with
  | some ddx, some ddy =>
    match int32 |ddx|, int32 |ddy| with
    | some dx, some ady =>
      match int32 (-ady) with
      | some dy =>
        match int32 (dx + dy) with
        | some e =>
          linePixelsLoop32 dx dy (if a.x < b.x then 1 else -1) (if a.y < b.y then 1 else -1)
            b fuel a e
        | none => none
      | none => none
    | _, _ => none
  | _, _ => none

/-! ## Vocabulary of the statements -/

/-- Step direction along one axis, as chosen by `linePixels`. -/
def stepSign (a b : Int) : Int := if a < b then 1 else -1

/-- Two pixels differ by at most one unit in each axis (8-connectedness). -/
@[reducible] def Adjacent (p q : Point) : Prop :=
  |q.x - p.x| ≤ 1 ∧ |q.y - p.y| ≤ 1

/-- The list starts at `p`, ends at `b` and each of its steps moves by `sx` in `x`, by `sy`
in `y`, or by both; `rx` counts the steps in `x` and `ry` the steps in `y`. -/
inductive Walk (sx sy : Int) (b : Point) : Nat → Nat → Point → List Point → Prop
  | stop : Walk sx sy b 0 0 b [b]
  | stepX (rx ry : Nat) (p : Point) (l : List Point) :
      Walk sx sy b rx ry { x := p.x + sx, y := p.y } l → Walk sx sy b (rx + 1) ry p (p :: l)
  | stepY (rx ry : Nat) (p : Point) (l : List Point) :
      Walk sx sy b rx ry { x := p.x, y := p.y + sy } l → Walk sx sy b rx (ry + 1) p (p :: l)
  | stepXY (rx ry : Nat) (p : Point) (l : List Point) :
      Walk sx sy b rx ry { x := p.x + sx, y := p.y + sy } l →
        Walk sx sy b (rx + 1) (ry + 1) p (p :: l)

/-- Invariant of the loop of `linePixels` at the point `p` with error term `e`: `rx` steps in
`x` and `ry` steps in `y` remain to `b`, and `e` is determined by them. -/
structure LineInv (dx dy sx sy : Int) (b p : Point) (e : Int) (rx ry : Nat) : Prop where
  hdx : 0 ≤ dx
  hdy : dy ≤ 0
  hsx : sx = 1 ∨ sx = -1
  hsy : sy = 1 ∨ sy = -1
  hrx : (rx : Int) ≤ dx
  hry : (ry : Int) ≤ -dy
  hx : b.x = p.x + sx * rx
  hy : b.y = p.y + sy * ry
  he : e = dx + dy - rx * dy - ry * dx

/-- Value of the pixel at `p`, `0` outside the image. -/
def Mat.pixel (m : Mat) (p : Point) : Nat :=
  (m.read p.y p.x).getD 0

/-- Sum of the darkness `255 - pixel` over the pixels of the line from `a` to `b`. -/
def lineDarkness (m : Mat) (a b : Point) : Nat :=
  ((linePixels a b).map fun p => 255 - m.pixel p).sum

/-- Point reflection of `p` through the midpoint of `a` and `b`. -/
def reflect (a b p : Point) : Point :=
  { x := a.x + b.x - p.x, y := a.y + b.y - p.y }

/-! ## Sample inputs -/

/-- A 4 x 4 image with four dark pixels, used to instantiate the theorems. -/
def sampleField : Mat :=
  { rows := 4, cols := 4,
    data := [255, 0, 255, 255,
             255, 200, 255, 255,
             255, 255, 7, 255,
             10, 255, 255, 255] }

/-- Three hooks inside `sampleField`. -/
def sampleHooks : List Point :=
  [{ x := 3, y := 2 }, { x := 0, y := 0 }, { x := 0, y := 3 }]

/-- Cosine at the `k`-th quarter turn. -/
def cosQuarter (k : Nat) : Int :=
  match k % 4 with
  | 0 => 1
  | 2 => -1
  | _ => 0

/-- Sine at the `k`-th quarter turn. -/
def sinQuarter (k : Nat) : Int :=
  match k % 4 with
  | 1 => 1
  | 3 => -1
  | _ => 0

/-- A 2 x 2 image whose pixel at `(0, 0)` is black and whose other pixels are white. -/
def darkHookField : Mat :=
  { rows := 2, cols := 2, data := [0, 255, 255, 255] }

/-- Two hooks inside `darkHookField`, the first on its black pixel. -/
def darkHookHooks : List Point :=
  [{ x := 0, y := 0 }, { x := 1, y := 0 }]

/-- Number of low bits a natural number loses when it is stored with the 24 significant bits
of a `float`; `fuel` bounds the search. -/
def mantissaShift : Nat → Nat → Nat
  | 0, _ => 0
  | fuel + 1, n => if n < 2 ^ 24 then 0 else mantissaShift fuel (n / 2) + 1

/-- A natural number rounded to the nearest `float`, ties to the even mantissa. -/
def roundNat (n : Nat) : Nat :=
  let s := mantissaShift 104 n
  let q := n / 2 ^ s
  let r := n % 2 ^ s
  if 2 * r < 2 ^ s then q * 2 ^ s
  else if 2 ^ s < 2 * r then (q + 1) * 2 ^ s
  else if q % 2 = 0 then q * 2 ^ s
  else (q + 1) * 2 ^ s

/-- An integer rounded to the nearest `float`. -/
def roundBinary32 (z : Int) : Int :=
  if z < 0 then -((roundNat z.natAbs : Nat) : Int) else ((roundNat z.natAbs : Nat) : Int)

/-- The `float` arithmetic on integer values: every conversion, product and sum is rounded to
24 significant bits, ties to even.  Angles are counted in whole quarter turns (a full turn
divided by `number` is `4 / number`), with cosine and sine `1`, `0` or `-1`; the instance
stands for the program's arithmetic at angle `0`, where it is used. -/
def binary32Env : FloatEnv :=
  { Val := Int,
    ofInt := fun k => roundBinary32 k,
    ofNat := fun k => roundBinary32 (k : Int),
    angle := fun number => ((4 / number : Nat) : Int),
    mul := fun u v => roundBinary32 (u * v),
    add := fun u v => roundBinary32 (u + v),
    cos := fun u => cosQuarter u.toNat,
    sin := fun u => sinQuarter u.toNat,
    toInt := fun u => u }

/-- Cosine at the `k`-th eighth of a turn, to four decimal places. -/
def cosEighth (k : Nat) : ℚ :=
  match k % 8 with
  | 0 => 1
  | 1 => 7071 / 10000
  | 2 => 0
  | 3 => -(7071 / 10000)
  | 4 => -1
  | 5 => -(7071 / 10000)
  | 6 => 0
  | _ => 7071 / 10000

/-- Sine at the `k`-th eighth of a turn, to four decimal places. -/
def sinEighth (k : Nat) : ℚ :=
  cosEighth (k + 6)

/-- A small environment with rational values to instantiate the theorems with: angles are
counted in whole eighths of a turn, and the conversion to `int` truncates toward zero a
value in the range of `int` and gives `-2 ^ 31` for any other value. -/
def eighthEnv : FloatEnv :=
  { Val := ℚ,
    ofInt := fun k => (k : ℚ),
    ofNat := fun k => (k : ℚ),
    angle := fun number => ((8 / number : Nat) : ℚ),
    mul := fun u v => u * v,
    add := fun u v => u + v,
    cos := fun u => cosEighth ⌊u⌋.toNat,
    sin := fun u => sinEighth ⌊u⌋.toNat,
    toInt := fun u =>
      if -(2 : ℚ) ^ 31 - 1 < u ∧ u < (2 : ℚ) ^ 31 then (if 0 ≤ u then ⌊u⌋ else ⌈u⌉)
      else -2 ^ 31 }

/-- The rational number a value of `eighthEnv` stands for: itself. -/
def eighthVal (v : eighthEnv.Val) : ℚ := v

/-! # Proofs -/

/-! ## The rasteriser -/

theorem Point.eq_iff (p q : Point) : p = q ↔ p.x = q.x ∧ p.y = q.y := by
  cases p; cases q; simp

theorem linePixelsLoop_walk (dx dy sx sy : Int) (b : Point) :
    ∀ (fuel : Nat) (p : Point) (e : Int) (rx ry : Nat),
      LineInv dx dy sx sy b p e rx ry → rx + ry < fuel →
      ∃ l, linePixelsLoop dx dy sx sy b fuel p e = some l ∧ Walk sx sy b rx ry p l := by
  intro fuel
  induction fuel with
  | zero => intro p e rx ry _ h; omega
  | succ fuel ih =>
    intro p e rx ry inv hfuel
    obtain ⟨hdx, hdy, hsx, hsy, hrx, hry, hx, hy, he⟩ := inv
    by_cases hpb : p.x = b.x ∧ p.y = b.y
    · have h0x : rx = 0 := by
        have : sx * (rx : Int) = 0 := by
          have := hpb.1
          omega
        rcases hsx with h | h <;> subst h <;> omega
      have h0y : ry = 0 := by
        have : sy * (ry : Int) = 0 := by
          have := hpb.2
          omega
        rcases hsy with h | h <;> subst h <;> omega
      have hp : p = b := (Point.eq_iff p b).2 hpb
      subst h0x h0y hp
      exact ⟨[p], by simp [linePixelsLoop], Walk.stop⟩
    · have hnot0 : rx ≠ 0 ∨ ry ≠ 0 := by
        by_contra hcon
        push_neg at hcon
        obtain ⟨h1, h2⟩ := hcon
        subst h1 h2
        apply hpb
        simp at hx hy
        exact ⟨hx.symm, hy.symm⟩
      have hX : 2 * e > dy → rx ≠ 0 := by
        intro hgt h0
        subst h0
        have hry1 : (1 : Int) ≤ ry := by omega
        have hm : 0 ≤ ((ry : Int) - 1) * dx := mul_nonneg (by omega) hdx
        simp at he
        nlinarith
      have hY : 2 * e < dx → ry ≠ 0 := by
        intro hlt h0
        subst h0
        have hrx1 : (1 : Int) ≤ rx := by omega
        have hm : 0 ≤ ((rx : Int) - 1) * (-dy) := mul_nonneg (by omega) (by omega)
        simp at he
        nlinarith
      by_cases c1 : 2 * e > dy <;> by_cases c2 : 2 * e < dx
      · obtain ⟨rx', rfl⟩ := Nat.exists_eq_succ_of_ne_zero (hX c1)
        obtain ⟨ry', rfl⟩ := Nat.exists_eq_succ_of_ne_zero (hY c2)
        obtain ⟨l, hl, hw⟩ := ih { x := p.x + sx, y := p.y + sy } (e + dy + dx) rx' ry'
          ⟨hdx, hdy, hsx, hsy, by push_cast at hrx; omega, by push_cast at hry; omega,
            by push_cast at hx; simp only; linarith, by push_cast at hy; simp only; linarith,
            by push_cast at he; linarith⟩ (by omega)
        exact ⟨p :: l, by simp [linePixelsLoop, hpb, c1, c2, hl], Walk.stepXY _ _ _ _ hw⟩
      · obtain ⟨rx', rfl⟩ := Nat.exists_eq_succ_of_ne_zero (hX c1)
        obtain ⟨l, hl, hw⟩ := ih { x := p.x + sx, y := p.y } (e + dy) rx' ry
          ⟨hdx, hdy, hsx, hsy, by push_cast at hrx; omega, hry,
            by push_cast at hx; simp only; linarith, hy,
            by push_cast at he; linarith⟩ (by omega)
        exact ⟨p :: l, by simp [linePixelsLoop, hpb, c1, c2, hl], Walk.stepX _ _ _ _ hw⟩
      · obtain ⟨ry', rfl⟩ := Nat.exists_eq_succ_of_ne_zero (hY c2)
        obtain ⟨l, hl, hw⟩ := ih { x := p.x, y := p.y + sy } (e + dx) rx ry'
          ⟨hdx, hdy, hsx, hsy, hrx, by push_cast at hry; omega,
            hx, by push_cast at hy; simp only; linarith,
            by push_cast at he; linarith⟩ (by omega)
        exact ⟨p :: l, by simp [linePixelsLoop, hpb, c1, c2, hl], Walk.stepY _ _ _ _ hw⟩
      · exfalso
        have h1 : dx = 0 := by omega
        have h2 : dy = 0 := by omega
        omega


theorem Walk.pos {sx sy : Int} {b : Point} {rx ry : Nat} {p : Point} {l : List Point}
    (h : Walk sx sy b rx ry p l) : b.x = p.x + sx * rx ∧ b.y = p.y + sy * ry := by
  induction h with
  | stop => simp
  | stepX rx ry p l _ ih => simp only at ih; push_cast; constructor <;> linarith [ih.1, ih.2]
  | stepY rx ry p l _ ih => simp only at ih; push_cast; constructor <;> linarith [ih.1, ih.2]
  | stepXY rx ry p l _ ih => simp only at ih; push_cast; constructor <;> linarith [ih.1, ih.2]

theorem Walk.head {sx sy : Int} {b : Point} {rx ry : Nat} {p : Point} {l : List Point}
    (h : Walk sx sy b rx ry p l) : l.head? = some p := by
  cases h <;> rfl

theorem Walk.last {sx sy : Int} {b : Point} {rx ry : Nat} {p : Point} {l : List Point}
    (h : Walk sx sy b rx ry p l) : l.getLast? = some b := by
  induction h with
  | stop => rfl
  | stepX rx ry p l hw ih =>
    cases l with
    | nil => simp at ih
    | cons q t => rw [List.getLast?_cons_cons]; exact ih
  | stepY rx ry p l hw ih =>
    cases l with
    | nil => simp at ih
    | cons q t => rw [List.getLast?_cons_cons]; exact ih
  | stepXY rx ry p l hw ih =>
    cases l with
    | nil => simp at ih
    | cons q t => rw [List.getLast?_cons_cons]; exact ih

theorem Walk.length_le {sx sy : Int} {b : Point} {rx ry : Nat} {p : Point} {l : List Point}
    (h : Walk sx sy b rx ry p l) : l.length ≤ rx + ry + 1 := by
  induction h with
  | stop => simp
  | stepX rx ry p l _ ih => simp only [List.length_cons]; omega
  | stepY rx ry p l _ ih => simp only [List.length_cons]; omega
  | stepXY rx ry p l _ ih => simp only [List.length_cons]; omega

theorem Walk.chain {sx sy : Int} {b : Point} {rx ry : Nat} {p : Point} {l : List Point}
    (hsx : sx = 1 ∨ sx = -1) (hsy : sy = 1 ∨ sy = -1)
    (h : Walk sx sy b rx ry p l) : List.Chain' Adjacent l := by
  induction h with
  | stop => simp
  | stepX rx ry p l hw ih =>
    rw [List.chain'_cons']
    refine ⟨?_, ih⟩
    intro q hq
    rw [hw.head] at hq
    cases hq
    simp only [Adjacent, abs_le]
    rcases hsx with h | h <;> subst h <;> omega
  | stepY rx ry p l hw ih =>
    rw [List.chain'_cons']
    refine ⟨?_, ih⟩
    intro q hq
    rw [hw.head] at hq
    cases hq
    simp only [Adjacent, abs_le]
    rcases hsy with h | h <;> subst h <;> omega
  | stepXY rx ry p l hw ih =>
    rw [List.chain'_cons']
    refine ⟨?_, ih⟩
    intro q hq
    rw [hw.head] at hq
    cases hq
    simp only [Adjacent, abs_le]
    rcases hsx with h | h <;> rcases hsy with h' | h' <;> subst h <;> subst h' <;> omega

theorem Walk.mem {sx sy : Int} {b : Point} {rx ry : Nat} {p : Point} {l : List Point}
    (h : Walk sx sy b rx ry p l) :
    ∀ q ∈ l, ∃ qx qy : Nat, qx ≤ rx ∧ qy ≤ ry ∧ (q = p ∨ qx + qy < rx + ry) ∧
      b.x = q.x + sx * qx ∧ b.y = q.y + sy * qy := by
  induction h with
  | stop => intro q hq; simp at hq; subst hq; exact ⟨0, 0, by simp⟩
  | stepX rx ry p l hw ih =>
    intro q hq
    rcases List.mem_cons.1 hq with h | h
    · subst h
      exact ⟨rx + 1, ry, le_refl _, le_refl _, Or.inl rfl, (Walk.stepX _ _ _ _ hw).pos⟩
    · obtain ⟨qx, qy, h1, h2, _, h4⟩ := ih q h
      exact ⟨qx, qy, by omega, h2, Or.inr (by omega), h4⟩
  | stepY rx ry p l hw ih =>
    intro q hq
    rcases List.mem_cons.1 hq with h | h
    · subst h
      exact ⟨rx, ry + 1, le_refl _, le_refl _, Or.inl rfl, (Walk.stepY _ _ _ _ hw).pos⟩
    · obtain ⟨qx, qy, h1, h2, _, h4⟩ := ih q h
      exact ⟨qx, qy, h1, by omega, Or.inr (by omega), h4⟩
  | stepXY rx ry p l hw ih =>
    intro q hq
    rcases List.mem_cons.1 hq with h | h
    · subst h
      exact ⟨rx + 1, ry + 1, le_refl _, le_refl _, Or.inl rfl, (Walk.stepXY _ _ _ _ hw).pos⟩
    · obtain ⟨qx, qy, h1, h2, _, h4⟩ := ih q h
      exact ⟨qx, qy, by omega, by omega, Or.inr (by omega), h4⟩

theorem Walk.not_mem_tail {sx sy : Int} {b : Point} {rx ry rx1 ry1 : Nat} {p q : Point}
    {l : List Point} (hsx : sx = 1 ∨ sx = -1) (hsy : sy = 1 ∨ sy = -1)
    (h : Walk sx sy b rx ry q l) (hp : b.x = p.x + sx * rx1 ∧ b.y = p.y + sy * ry1)
    (hlt : rx + ry < rx1 + ry1) : p ∉ l := by
  intro hmem
  obtain ⟨qx, qy, h1, h2, _, h4, h5⟩ := h.mem p hmem
  have hp1 := hp.1
  have hp2 := hp.2
  have e1 : qx = rx1 := by
    rcases hsx with h | h <;> subst h <;> omega
  have e2 : qy = ry1 := by
    rcases hsy with h | h <;> subst h <;> omega
  omega

theorem Walk.nodup {sx sy : Int} {b : Point} {rx ry : Nat} {p : Point} {l : List Point}
    (hsx : sx = 1 ∨ sx = -1) (hsy : sy = 1 ∨ sy = -1)
    (h : Walk sx sy b rx ry p l) : l.Nodup := by
  induction h with
  | stop => simp
  | stepX rx ry p l hw ih =>
    exact List.nodup_cons.2
      ⟨hw.not_mem_tail hsx hsy (Walk.stepX _ _ _ _ hw).pos (by omega), ih⟩
  | stepY rx ry p l hw ih =>
    exact List.nodup_cons.2
      ⟨hw.not_mem_tail hsx hsy (Walk.stepY _ _ _ _ hw).pos (by omega), ih⟩
  | stepXY rx ry p l hw ih =>
    exact List.nodup_cons.2
      ⟨hw.not_mem_tail hsx hsy (Walk.stepXY _ _ _ _ hw).pos (by omega), ih⟩

theorem linePixelsLoop_succ (dx dy sx sy : Int) (b : Point) :
    ∀ (fuel : Nat) (p : Point) (e : Int) (l : List Point),
      linePixelsLoop dx dy sx sy b fuel p e = some l →
      linePixelsLoop dx dy sx sy b (fuel + 1) p e = some l := by
  intro fuel
  induction fuel with
  | zero => intro p e l h; simp [linePixelsLoop] at h
  | succ fuel ih =>
    intro p e l h
    rw [linePixelsLoop] at h ⊢
    by_cases hpb : p.x = b.x ∧ p.y = b.y
    · rw [if_pos hpb] at h ⊢
      exact h
    · rw [if_neg hpb] at h ⊢
      simp only [Option.map_eq_some'] at h ⊢
      obtain ⟨t, ht, rfl⟩ := h
      exact ⟨t, ih _ _ _ ht, rfl⟩

theorem linePixelsLoop_mono (dx dy sx sy : Int) (b : Point) (p : Point) (e : Int)
    (l : List Point) (fuel fuel1 : Nat) (hle : fuel ≤ fuel1)
    (h : linePixelsLoop dx dy sx sy b fuel p e = some l) :
    linePixelsLoop dx dy sx sy b fuel1 p e = some l := by
  induction hle with
  | refl => exact h
  | step _ ih => exact linePixelsLoop_succ _ _ _ _ _ _ _ _ _ ih

theorem stepSign_cases (a b : Int) : stepSign a b = 1 ∨ stepSign a b = -1 := by
  unfold stepSign; split <;> simp

theorem lineInv_init (a b : Point) :
    LineInv |b.x - a.x| (-|b.y - a.y|) (stepSign a.x b.x) (stepSign a.y b.y) b a
      (|b.x - a.x| + -|b.y - a.y|) (b.x - a.x).natAbs (b.y - a.y).natAbs := by
  refine ⟨abs_nonneg _, by simp, stepSign_cases _ _, stepSign_cases _ _, ?_, ?_, ?_, ?_, ?_⟩
  · exact (Int.abs_eq_natAbs _).ge
  · rw [neg_neg]; exact (Int.abs_eq_natAbs _).ge
  · unfold stepSign; split <;> omega
  · unfold stepSign; split <;> omega
  · simp only [Int.abs_eq_natAbs]; ring

theorem linePixelsFuel_walk (a b : Point) (fuel : Nat)
    (hfuel : (b.x - a.x).natAbs + (b.y - a.y).natAbs < fuel) :
    ∃ l, linePixelsFuel fuel a b = some l ∧
      Walk (stepSign a.x b.x) (stepSign a.y b.y) b (b.x - a.x).natAbs (b.y - a.y).natAbs a l :=
  linePixelsLoop_walk _ _ _ _ b fuel a _ _ _ (lineInv_init a b) hfuel

theorem linePixels_walk (a b : Point) :
    linePixelsFuel ((b.x - a.x).natAbs + (b.y - a.y).natAbs + 1) a b = some (linePixels a b) ∧
      Walk (stepSign a.x b.x) (stepSign a.y b.y) b (b.x - a.x).natAbs (b.y - a.y).natAbs a
        (linePixels a b) := by
  obtain ⟨l, hl, hw⟩ := linePixelsFuel_walk a b _ (Nat.lt_succ_self _)
  have : linePixels a b = l := by simp [linePixels, hl]
  rw [this]
  exact ⟨hl, hw⟩

theorem linePixelsFuel_eq (a b : Point) (fuel : Nat) (l : List Point)
    (h : linePixelsFuel fuel a b = some l) : l = linePixels a b := by
  have h1 := (linePixels_walk a b).1
  unfold linePixelsFuel at h h1
  have h2 := linePixelsLoop_mono _ _ _ _ _ _ _ _ _ _ (le_max_left fuel
    ((b.x - a.x).natAbs + (b.y - a.y).natAbs + 1)) h
  have h3 := linePixelsLoop_mono _ _ _ _ _ _ _ _ _ _ (le_max_right fuel
    ((b.x - a.x).natAbs + (b.y - a.y).natAbs + 1)) h1
  rw [h2] at h3
  exact Option.some.inj h3

/-! ## The scorer and the field mutator -/

theorem linePixels_head (a b : Point) : (linePixels a b).head? = some a :=
  (linePixels_walk a b).2.head

theorem linePixels_last (a b : Point) : (linePixels a b).getLast? = some b :=
  (linePixels_walk a b).2.last

theorem linePixels_mem_left (a b : Point) : a ∈ linePixels a b :=
  List.mem_of_mem_head? (linePixels_head a b)

theorem linePixels_mem_right (a b : Point) : b ∈ linePixels a b :=
  List.mem_of_mem_getLast? (linePixels_last a b)

theorem linePixels_length_le (a b : Point) :
    (linePixels a b).length ≤ (b.x - a.x).natAbs + (b.y - a.y).natAbs + 1 :=
  (linePixels_walk a b).2.length_le

theorem linePixels_mem_box (a b p : Point) (hp : p ∈ linePixels a b) :
    (min a.x b.x ≤ p.x ∧ p.x ≤ max a.x b.x) ∧ (min a.y b.y ≤ p.y ∧ p.y ≤ max a.y b.y) := by
  obtain ⟨qx, qy, h1, h2, _, h4, h5⟩ := (linePixels_walk a b).2.mem p hp
  constructor
  · rcases stepSign_cases a.x b.x with h | h <;> rw [h] at h4 <;>
      unfold stepSign at h <;> split at h <;> omega
  · rcases stepSign_cases a.y b.y with h | h <;> rw [h] at h5 <;>
      unfold stepSign at h <;> split at h <;> omega

theorem linePixels_inside (m : Mat) (a b : Point) (ha : m.contains a) (hb : m.contains b) :
    ∀ p ∈ linePixels a b, m.contains p := by
  intro p hp
  have := linePixels_mem_box a b p hp
  simp only [Mat.contains, Mat.inside] at ha hb ⊢
  omega

theorem index_lt {rows cols : Nat} {y x : Int} (hy0 : 0 ≤ y) (hy : y < rows) (hx0 : 0 ≤ x)
    (hx : x < cols) : y.toNat * cols + x.toNat < rows * cols := by
  have h1 : y.toNat + 1 ≤ rows := by omega
  have h2 : x.toNat < cols := by omega
  calc y.toNat * cols + x.toNat < y.toNat * cols + cols := by omega
    _ = (y.toNat + 1) * cols := by ring
    _ ≤ rows * cols := Nat.mul_le_mul_right _ h1

theorem index_inj {cols : Nat} {y x y1 x1 : Int} (hy0 : 0 ≤ y) (hx0 : 0 ≤ x) (hx : x < cols)
    (hy1 : 0 ≤ y1) (hx1 : 0 ≤ x1) (hxc : x1 < cols)
    (h : y.toNat * cols + x.toNat = y1.toNat * cols + x1.toNat) : y = y1 ∧ x = x1 := by
  have hc : 0 < cols := by omega
  have e1 : (y.toNat * cols + x.toNat) / cols = y.toNat := by
    rw [Nat.add_comm, Nat.add_mul_div_right _ _ hc, Nat.div_eq_of_lt (by omega)]; simp
  have e2 : (y1.toNat * cols + x1.toNat) / cols = y1.toNat := by
    rw [Nat.add_comm, Nat.add_mul_div_right _ _ hc, Nat.div_eq_of_lt (by omega)]; simp
  have e3 : y.toNat = y1.toNat := by rw [← e1, ← e2, h]
  rw [e3] at h
  omega

theorem Mat.read_of_inside (m : Mat) (hwf : m.WF) (y x : Int) (h : m.inside y x) :
    ∃ v, m.read y x = some v ∧ v ≤ 255 := by
  obtain ⟨hlen, hval, _, _⟩ := hwf
  have hi : y.toNat * m.cols + x.toNat < m.data.length := by
    rw [hlen]; exact index_lt h.1 h.2.1 h.2.2.1 h.2.2.2
  refine ⟨m.data[y.toNat * m.cols + x.toNat], ?_, hval _ (List.getElem_mem _)⟩
  simp [Mat.read, h, List.getElem?_eq_getElem hi]

theorem Mat.pixel_le (m : Mat) (hwf : m.WF) (p : Point) : m.pixel p ≤ 255 := by
  unfold Mat.pixel Mat.read
  split
  · cases h : m.data[p.y.toNat * m.cols + p.x.toNat]? with
    | none => simp
    | some v => simpa using hwf.2.1 v (List.getElem?_mem h)
  · simp

theorem Mat.read_eq_pixel (m : Mat) (hwf : m.WF) (p : Point) (h : m.contains p) :
    m.read p.y p.x = some (m.pixel p) := by
  obtain ⟨v, hv, _⟩ := m.read_of_inside hwf p.y p.x h
  simp [Mat.pixel, hv]

theorem lineScoreLoop_eq (m : Mat) (hwf : m.WF) :
    ∀ (pts : List Point) (score : Nat), score < 2 ^ 64 → (∀ p ∈ pts, m.contains p) →
      lineScoreLoop m pts score =
        some ((score + (pts.map fun p => 255 - m.pixel p).sum) % 2 ^ 64)
  | [], score, hs, _ => by
    simp only [lineScoreLoop, List.map_nil, List.sum_nil, Nat.add_zero]
    rw [Nat.mod_eq_of_lt hs]
  | p :: ps, score, _, h => by
    have hp := m.read_eq_pixel hwf p (h p (List.mem_cons_self _ _))
    rw [lineScoreLoop, hp]
    simp only
    rw [lineScoreLoop_eq m hwf ps _ (Nat.mod_lt _ (by norm_num))
      (fun q hq => h q (List.mem_cons_of_mem _ hq))]
    simp only [List.map_cons, List.sum_cons]
    congr 1
    rw [Nat.add_mod, Nat.mod_mod, ← Nat.add_mod, Nat.add_assoc]

theorem sum_darkness_le (m : Mat) (pts : List Point) :
    (pts.map fun p => 255 - m.pixel p).sum ≤ 255 * pts.length := by
  induction pts with
  | nil => simp
  | cons p ps ih => simp only [List.map_cons, List.sum_cons, List.length_cons]; omega

theorem lineDarkness_lt (m : Mat) (hwf : m.WF) (a b : Point) (ha : m.contains a)
    (hb : m.contains b) : lineDarkness m a b < 2 ^ 64 := by
  have h1 := sum_darkness_le m (linePixels a b)
  have h2 := linePixels_length_le a b
  obtain ⟨_, _, hr, hc⟩ := hwf
  simp only [Mat.contains, Mat.inside] at ha hb
  have h3 : (b.x - a.x).natAbs + (b.y - a.y).natAbs + 1 < 2 ^ 32 := by omega
  unfold lineDarkness
  omega

theorem lineScore_eq (m : Mat) (hwf : m.WF) (a b : Point) (ha : m.contains a)
    (hb : m.contains b) : lineScore m a b = some (lineDarkness m a b) := by
  unfold lineScore
  rw [lineScoreLoop_eq m hwf _ 0 (by norm_num) (linePixels_inside m a b ha hb)]
  have h := lineDarkness_lt m hwf a b ha hb
  unfold lineDarkness at h ⊢
  rw [Nat.zero_add, Nat.mod_eq_of_lt h]

theorem sum_set_add : ∀ (l : List Nat) (i v : Nat) (h : i < l.length),
    (l.set i v).sum + l[i] = l.sum + v
  | x :: xs, 0, v, _ => by simp; omega
  | x :: xs, i + 1, v, h => by
    have := sum_set_add xs i v (by simpa using h)
    simp only [List.set_cons_succ, List.sum_cons, List.getElem_cons_succ]
    omega

theorem Mat.write_of_inside (m : Mat) (y x : Int) (v : Nat) (h : m.inside y x) :
    m.write y x v = some { m with data := m.data.set (y.toNat * m.cols + x.toNat) v } := by
  simp [Mat.write, h]

theorem Mat.write_wf (m : Mat) (hwf : m.WF) (y x : Int) (v : Nat) (hv : v ≤ 255) :
    Mat.WF { m with data := m.data.set (y.toNat * m.cols + x.toNat) v } := by
  obtain ⟨hlen, hval, hr, hc⟩ := hwf
  refine ⟨by simpa using hlen, ?_, hr, hc⟩
  intro w hw
  rcases List.mem_or_eq_of_mem_set hw with h | h
  · exact hval w h
  · omega

theorem Mat.pixel_write (m : Mat) (hwf : m.WF) (p q : Point) (v : Nat) (hp : m.contains p) :
    Mat.pixel { m with data := m.data.set (p.y.toNat * m.cols + p.x.toNat) v } q =
      if q = p then v else m.pixel q := by
  have hi : p.y.toNat * m.cols + p.x.toNat < m.data.length := by
    rw [hwf.1]; exact index_lt hp.1 hp.2.1 hp.2.2.1 hp.2.2.2
  by_cases hqp : q = p
  · subst hqp
    have hp1 : Mat.inside { m with data := m.data.set (q.y.toNat * m.cols + q.x.toNat) v }
        q.y q.x := hp
    unfold Mat.pixel Mat.read
    rw [if_pos hp1]
    simp [List.getElem?_set, hi]
  · rw [if_neg hqp]
    unfold Mat.pixel Mat.read
    by_cases hq : m.inside q.y q.x
    · have hq1 : Mat.inside { m with data := m.data.set (p.y.toNat * m.cols + p.x.toNat) v }
          q.y q.x := hq
      have hne : p.y.toNat * m.cols + p.x.toNat ≠ q.y.toNat * m.cols + q.x.toNat := by
        intro heq
        have := index_inj hp.1 hp.2.2.1 hp.2.2.2 hq.1 hq.2.2.1 hq.2.2.2 heq
        exact hqp ((Point.eq_iff q p).2 ⟨this.2.symm, this.1.symm⟩)
      rw [if_pos hq, if_pos hq1]
      simp [List.getElem?_set_ne hne]
    · have hq1 : ¬ Mat.inside { m with data := m.data.set (p.y.toNat * m.cols + p.x.toNat) v }
          q.y q.x := hq
      rw [if_neg hq, if_neg hq1]

theorem Mat.total_write (m : Mat) (hwf : m.WF) (p : Point) (v : Nat) (hp : m.contains p) :
    Mat.total { m with data := m.data.set (p.y.toNat * m.cols + p.x.toNat) v } + m.pixel p =
      m.total + v := by
  have hi : p.y.toNat * m.cols + p.x.toNat < m.data.length := by
    rw [hwf.1]; exact index_lt hp.1 hp.2.1 hp.2.2.1 hp.2.2.2
  have := sum_set_add m.data _ v hi
  simp only [Mat.total, Mat.pixel, Mat.read]
  rw [if_pos hp, List.getElem?_eq_getElem hi]
  simpa using this

/-- Effect of the loop of `reduceLine` on an image whose listed points are all inside. -/
theorem reduceLineLoop_spec :
    ∀ (pts : List Point) (m : Mat), m.WF → (∀ p ∈ pts, m.contains p) →
      ∃ m1, reduceLineLoop m pts = some m1 ∧ m1.WF ∧ m1.rows = m.rows ∧ m1.cols = m.cols ∧
        (∀ q, m1.pixel q = if q ∈ pts then 255 else m.pixel q) ∧
        m.total ≤ m1.total ∧
        m1.total ≤ m.total + (pts.map fun p => 255 - m.pixel p).sum ∧
        (pts.Nodup → m1.total = m.total + (pts.map fun p => 255 - m.pixel p).sum)
  | [], m, hwf, _ => ⟨m, rfl, hwf, rfl, rfl, by simp, le_refl _, by simp, by simp⟩
  | p :: ps, m, hwf, h => by
    have hp : m.contains p := h p (List.mem_cons_self _ _)
    have hwf0 := m.write_wf hwf p.y p.x 255 (le_refl _)
    have hpix0 := fun q => m.pixel_write hwf p q 255 hp
    have htot0 := m.total_write hwf p 255 hp
    have hple := m.pixel_le hwf p
    obtain ⟨m1, hm1, hwf1, hr, hc, hpix, hlo, hhi, heq⟩ := reduceLineLoop_spec ps
      { m with data := m.data.set (p.y.toNat * m.cols + p.x.toNat) 255 } hwf0
      (fun q hq => h q (List.mem_cons_of_mem _ hq))
    have hmono : (ps.map fun q => 255 - Mat.pixel
        { m with data := m.data.set (p.y.toNat * m.cols + p.x.toNat) 255 } q).sum ≤
        (ps.map fun q => 255 - m.pixel q).sum := by
      apply List.sum_le_sum
      intro q _
      rw [hpix0 q]
      split <;> omega
    refine ⟨m1, ?_, hwf1, hr, hc, ?_, ?_, ?_, ?_⟩
    · rw [reduceLineLoop, m.write_of_inside p.y p.x 255 hp]
      exact hm1
    · intro q
      rw [hpix q, hpix0 q]
      by_cases hqp : q = p
      · simp [hqp]
      · simp [hqp]
    · omega
    · simp only [List.map_cons, List.sum_cons]
      omega
    · intro hnd
      have hnd1 := List.nodup_cons.1 hnd
      have hsame : (ps.map fun q => 255 - Mat.pixel
          { m with data := m.data.set (p.y.toNat * m.cols + p.x.toNat) 255 } q) =
          (ps.map fun q => 255 - m.pixel q) := by
        apply List.map_congr_left
        intro q hq
        rw [hpix0 q, if_neg (fun hqp : q = p => hnd1.1 (hqp ▸ hq))]
      have := heq hnd1.2
      rw [hsame] at this
      simp only [List.map_cons, List.sum_cons]
      omega

/-! ## Hook selection and the string loop -/

theorem nextHookLoop_spec (mat : Mat) (cur : Point) (sc : Nat → Nat) :
    ∀ (hs : List Point) (i maxScore next : Nat),
      (∀ (k : Nat) (hk : k < hs.length), lineScore mat cur (hs.get ⟨k, hk⟩) = some (sc (i + k))) →
      (∀ j < i, sc j ≤ maxScore) → (∀ j < next, sc j < maxScore) →
      ((maxScore = 0 ∧ next = 0) ∨ (next < i ∧ sc next = maxScore)) →
      ∃ n M, nextHookLoop mat cur hs i maxScore next = some n ∧
        (∀ j < i + hs.length, sc j ≤ M) ∧ (∀ j < n, sc j < M) ∧
        ((M = 0 ∧ n = 0) ∨ (n < i + hs.length ∧ sc n = M))
  | [], i, maxScore, next, _, h1, h2, h3 =>
    ⟨next, maxScore, rfl, by simpa using h1, h2, by simpa using h3⟩
  | h :: hs, i, maxScore, next, hsc, h1, h2, h3 => by
    have h0 : lineScore mat cur h = some (sc i) := by
      simpa using hsc 0 (by simp)
    have hrest : ∀ (k : Nat) (hk : k < hs.length),
        lineScore mat cur (hs.get ⟨k, hk⟩) = some (sc (i + 1 + k)) := by
      intro k hk
      have := hsc (k + 1) (by simpa using hk)
      simpa [Nat.add_assoc, Nat.add_comm 1 k] using this
    rw [nextHookLoop, h0]
    simp only
    by_cases hgt : sc i > maxScore
    · rw [if_pos hgt]
      obtain ⟨n, M, hn, a1, a2, a3⟩ := nextHookLoop_spec mat cur sc hs (i + 1) (sc i) i hrest
        (fun j hj => by
          rcases Nat.lt_succ_iff_lt_or_eq.1 hj with h | h
          · exact le_trans (h1 j h) (le_of_lt hgt)
          · rw [h])
        (fun j hj => lt_of_le_of_lt (h1 j hj) hgt)
        (Or.inr ⟨Nat.lt_succ_self i, rfl⟩)
      refine ⟨n, M, hn, ?_, a2, ?_⟩
      · intro j hj; exact a1 j (by simp only [List.length_cons] at hj; omega)
      · rcases a3 with h | h
        · exact Or.inl h
        · exact Or.inr ⟨by simp only [List.length_cons]; omega, h.2⟩
    · rw [if_neg hgt]
      obtain ⟨n, M, hn, a1, a2, a3⟩ := nextHookLoop_spec mat cur sc hs (i + 1) maxScore next
        hrest
        (fun j hj => by
          rcases Nat.lt_succ_iff_lt_or_eq.1 hj with h | h
          · exact h1 j h
          · rw [h]; exact not_lt.1 hgt)
        h2
        (by
          rcases h3 with h | h
          · exact Or.inl h
          · exact Or.inr ⟨Nat.lt_succ_of_lt h.1, h.2⟩)
      refine ⟨n, M, hn, ?_, a2, ?_⟩
      · intro j hj; exact a1 j (by simp only [List.length_cons] at hj; omega)
      · rcases a3 with h | h
        · exact Or.inl h
        · exact Or.inr ⟨by simp only [List.length_cons]; omega, h.2⟩

/-- The hook chosen by `nextHook`, in terms of the darkness of the chords. -/
theorem nextHook_spec (hooks : List Point) (f : Mat) (current : Nat) (hwf : f.WF)
    (hin : ∀ p ∈ hooks, f.contains p) (hcur : current < hooks.length) :
    ∃ n, nextHook current hooks f = some n ∧ n < hooks.length ∧
      (∀ j < hooks.length, lineDarkness f (hooks.get ⟨current, hcur⟩) (hooks.getD j ⟨0, 0⟩) ≤
        lineDarkness f (hooks.get ⟨current, hcur⟩) (hooks.getD n ⟨0, 0⟩)) ∧
      (∀ j < n, lineDarkness f (hooks.get ⟨current, hcur⟩) (hooks.getD j ⟨0, 0⟩) <
        lineDarkness f (hooks.get ⟨current, hcur⟩) (hooks.getD n ⟨0, 0⟩)) := by
  have hne : hooks ≠ [] := by
    intro h; rw [h] at hcur; simp at hcur
  have hc : f.contains (hooks.get ⟨current, hcur⟩) := hin _ (List.get_mem _ _ _)
  obtain ⟨n, M, hn, a1, a2, a3⟩ := nextHookLoop_spec f (hooks.get ⟨current, hcur⟩)
    (fun j => lineDarkness f (hooks.get ⟨current, hcur⟩) (hooks.getD j ⟨0, 0⟩)) hooks 0 0 0
    (fun k hk => by
      rw [lineScore_eq f hwf _ _ hc (hin _ (List.get_mem _ _ _))]
      simp [List.getElem?_eq_getElem hk])
    (fun j hj => absurd hj (Nat.not_lt_zero j)) (fun j hj => absurd hj (Nat.not_lt_zero j))
    (Or.inl ⟨rfl, rfl⟩)
  have hpos : 0 < hooks.length := by omega
  simp only [Nat.zero_add] at a1 a3
  have hM : lineDarkness f (hooks.get ⟨current, hcur⟩) (hooks.getD n ⟨0, 0⟩) = M := by
    rcases a3 with h | h
    · have := a1 0 hpos
      rw [h.2]; omega
    · exact h.2
  refine ⟨n, ?_, ?_, ?_, ?_⟩
  · unfold nextHook
    rw [if_neg hne, List.getElem?_eq_getElem hcur]
    exact hn
  · rcases a3 with h | h
    · omega
    · exact h.1
  · intro j hj; rw [hM]; exact a1 j hj
  · intro j hj; rw [hM]; exact a2 j hj

theorem reduceLine_spec (m : Mat) (hwf : m.WF) (a b : Point) (ha : m.contains a)
    (hb : m.contains b) :
    ∃ m1, reduceLine m a b = some m1 ∧ m1.WF ∧ m1.rows = m.rows ∧ m1.cols = m.cols ∧
      (∀ q, m1.pixel q = if q ∈ linePixels a b then 255 else m.pixel q) ∧
      m.total ≤ m1.total ∧ m1.total ≤ m.total + lineDarkness m a b ∧
      m1.total = m.total + lineDarkness m a b := by
  obtain ⟨m1, h1, h2, h3, h4, h5, h6, h7, h8⟩ :=
    reduceLineLoop_spec (linePixels a b) m hwf (linePixels_inside m a b ha hb)
  exact ⟨m1, h1, h2, h3, h4, h5, h6, h7,
    h8 ((linePixels_walk a b).2.nodup (stepSign_cases _ _) (stepSign_cases _ _))⟩

theorem contains_of_dims (m m1 : Mat) (hr : m1.rows = m.rows) (hc : m1.cols = m.cols)
    (p : Point) (h : m.contains p) : m1.contains p := by
  simp only [Mat.contains, Mat.inside] at h ⊢
  rw [hr, hc]; exact h

theorem stringStep_spec (hooks : List Point) (img : Mat) (current : Nat) (hwf : img.WF)
    (hin : ∀ p ∈ hooks, img.contains p) (hcur : current < hooks.length) :
    ∃ next img1, ∃ hnext : next < hooks.length,
      stringStep hooks current img = some (next, img1) ∧
      nextHook current hooks img = some next ∧
      reduceLine img (hooks.get ⟨current, hcur⟩) (hooks.get ⟨next, hnext⟩) = some img1 ∧
      img1.WF ∧ img1.rows = img.rows ∧ img1.cols = img.cols := by
  obtain ⟨n, hn, hlt, _, _⟩ := nextHook_spec hooks img current hwf hin hcur
  obtain ⟨m1, h1, h2, h3, h4, _⟩ := reduceLine_spec img hwf (hooks.get ⟨current, hcur⟩)
    (hooks.get ⟨n, hlt⟩) (hin _ (List.get_mem _ _ _)) (hin _ (List.get_mem _ _ _))
  refine ⟨n, m1, hlt, ?_, hn, h1, h2, h3, h4⟩
  unfold stringStep
  rw [hn]
  simp only [List.getElem?_eq_getElem hcur, List.getElem?_eq_getElem hlt]
  simp only [List.get_eq_getElem] at h1
  rw [h1]

theorem stringLoop_spec (hooks : List Point) :
    ∀ (n current : Nat) (img : Mat), img.WF → (∀ p ∈ hooks, img.contains p) →
      current < hooks.length →
      ∃ path out, stringLoop hooks n current img = some (path, out) ∧ path.length = n ∧
        (∀ i ∈ path, i < hooks.length) ∧ img.total ≤ out.total
  | 0, _, img, _, _, _ => ⟨[], img, rfl, rfl, by simp, le_refl _⟩
  | n + 1, current, img, hwf, hin, hcur => by
    obtain ⟨next, img1, hnext, hs, _, hred, hwf1, hr, hc⟩ :=
      stringStep_spec hooks img current hwf hin hcur
    obtain ⟨_, hred1, _, _, _, _, htot, _⟩ := reduceLine_spec img hwf (hooks.get ⟨current, hcur⟩)
      (hooks.get ⟨next, hnext⟩) (hin _ (List.get_mem _ _ _)) (hin _ (List.get_mem _ _ _))
    rw [hred] at hred1
    cases hred1
    obtain ⟨path, out, hl, hlen, hmem, hto⟩ := stringLoop_spec hooks n next img1 hwf1
      (fun p hp => contains_of_dims img img1 hr hc p (hin p hp)) hnext
    refine ⟨next :: path, out, ?_, by simp [hlen], ?_, le_trans htot hto⟩
    · rw [stringLoop, hs]
      simp only
      rw [hl]
    · intro i hi
      rcases List.mem_cons.1 hi with h | h
      · rw [h]; exact hnext
      · exact hmem i h

/-! ## Claims on hook selection, rasteriser, scorer, mutator and string loop -/

/-- C1: for hooks inside a well-formed field and a valid current index, `nextHook` returns an
index `n` whose chord from the current hook has the greatest `lineScore`, every lower index
scores strictly less (lowest index on ties), and `n = 0` when every hook scores zero. -/
theorem nextHook_greatest_lowest_index (hooks : List Point) (field : Mat) (current : Nat)
    (hwf : field.WF) (hin : ∀ p ∈ hooks, field.contains p) (hcur : current < hooks.length) :
    ∃ n : Fin hooks.length, nextHook current hooks field = some n.val ∧
      ∃ sn, lineScore field (hooks.get ⟨current, hcur⟩) (hooks.get n) = some sn ∧
        (∀ j : Fin hooks.length, ∃ sj,
          lineScore field (hooks.get ⟨current, hcur⟩) (hooks.get j) = some sj ∧
            sj ≤ sn ∧ (j < n → sj < sn)) ∧
        ((∀ j : Fin hooks.length,
          lineScore field (hooks.get ⟨current, hcur⟩) (hooks.get j) = some 0) → n.val = 0) := by
  obtain ⟨n, hn, hlt, hmax, hlow⟩ := nextHook_spec hooks field current hwf hin hcur
  have hc : field.contains (hooks.get ⟨current, hcur⟩) := hin _ (List.get_mem _ _ _)
  have hscore : ∀ j : Fin hooks.length,
      lineScore field (hooks.get ⟨current, hcur⟩) (hooks.get j) =
        some (lineDarkness field (hooks.get ⟨current, hcur⟩) (hooks.getD j.val ⟨0, 0⟩)) := by
    intro j
    rw [lineScore_eq field hwf _ _ hc (hin _ (List.get_mem _ _ _))]
    simp [List.getElem?_eq_getElem j.isLt]
  refine ⟨⟨n, hlt⟩, hn, _, hscore ⟨n, hlt⟩, ?_, ?_⟩
  · intro j
    exact ⟨_, hscore j, hmax j.val j.isLt, fun hjn => hlow j.val hjn⟩
  · intro hzero
    by_contra hn0
    have h0 : 0 < n := Nat.pos_of_ne_zero hn0
    have h1 := hlow 0 h0
    have h2 := hzero ⟨n, hlt⟩
    rw [hscore ⟨n, hlt⟩] at h2
    have h3 := Option.some.inj h2
    simp only at h3
    omega

theorem nextHook_greatest_lowest_index_witness :
    sampleField.WF ∧ (∀ p ∈ sampleHooks, sampleField.contains p) ∧
    ∃ n : Fin sampleHooks.length, nextHook 0 sampleHooks sampleField = some n.val ∧
      ∃ sn, lineScore sampleField (sampleHooks.get ⟨0, by decide⟩) (sampleHooks.get n) = some sn ∧
        (∀ j : Fin sampleHooks.length, ∃ sj,
          lineScore sampleField (sampleHooks.get ⟨0, by decide⟩) (sampleHooks.get j) = some sj ∧
            sj ≤ sn ∧ (j < n → sj < sn)) ∧
        ((∀ j : Fin sampleHooks.length,
          lineScore sampleField (sampleHooks.get ⟨0, by decide⟩) (sampleHooks.get j) = some 0) →
            n.val = 0) :=
  ⟨by decide, by decide,
    nextHook_greatest_lowest_index sampleHooks sampleField 0 (by decide) (by decide) (by decide)⟩

/-- C2: for all integer points `a` and `b` the loop of `linePixels` terminates (every fuel
above `|bx - ax| + |by - ay|` yields the same list `linePixels a b`), the list starts with
`a`, ends with `b`, and consecutive points differ by at most one unit in `x` and in `y`. -/
theorem linePixels_connected_path (a b : Point) :
    (∀ fuel, (b.x - a.x).natAbs + (b.y - a.y).natAbs < fuel →
      linePixelsFuel fuel a b = some (linePixels a b)) ∧
    (linePixels a b).head? = some a ∧ (linePixels a b).getLast? = some b ∧
    List.Chain' Adjacent (linePixels a b) := by
  refine ⟨?_, linePixels_head a b, linePixels_last a b,
    (linePixels_walk a b).2.chain (stepSign_cases _ _) (stepSign_cases _ _)⟩
  intro fuel hfuel
  obtain ⟨l, hl, _⟩ := linePixelsFuel_walk a b fuel hfuel
  rw [hl, linePixelsFuel_eq a b fuel l hl]

/-- C3: when the pixels of the line from `a` to `b` lie inside a well-formed field, every one
of them is read successfully, `lineScore` is the sum of `255 - pixel` over `linePixels a b`,
and it is `0` when all of these pixels are `255`.  The embedding of `lineScore` takes the
field by value and has no field output, as the source only reads `image`. -/
theorem lineScore_eq_darkness_sum (field : Mat) (a b : Point) (hwf : field.WF)
    (hin : ∀ p ∈ linePixels a b, field.contains p) :
    (∀ p ∈ linePixels a b, field.read p.y p.x = some (field.pixel p)) ∧
    lineScore field a b = some ((linePixels a b).map fun p => 255 - field.pixel p).sum ∧
    ((∀ p ∈ linePixels a b, field.read p.y p.x = some 255) → lineScore field a b = some 0) := by
  have ha := hin a (linePixels_mem_left a b)
  have hb := hin b (linePixels_mem_right a b)
  have hs := lineScore_eq field hwf a b ha hb
  refine ⟨fun p hp => field.read_eq_pixel hwf p (hin p hp), hs, ?_⟩
  intro hall
  rw [hs]
  congr 1
  unfold lineDarkness
  apply List.sum_eq_zero
  intro v hv
  obtain ⟨p, hp, rfl⟩ := List.mem_map.1 hv
  simp [Mat.pixel, hall p hp]

theorem lineScore_eq_darkness_sum_witness :
    sampleField.WF ∧
    (∀ p ∈ linePixels ⟨1, 0⟩ ⟨2, 2⟩, sampleField.contains p) ∧
    ((∀ p ∈ linePixels ⟨1, 0⟩ ⟨2, 2⟩, sampleField.read p.y p.x = some (sampleField.pixel p)) ∧
    lineScore sampleField ⟨1, 0⟩ ⟨2, 2⟩ =
      some ((linePixels ⟨1, 0⟩ ⟨2, 2⟩).map fun p => 255 - sampleField.pixel p).sum ∧
    ((∀ p ∈ linePixels ⟨1, 0⟩ ⟨2, 2⟩, sampleField.read p.y p.x = some 255) →
      lineScore sampleField ⟨1, 0⟩ ⟨2, 2⟩ = some 0)) :=
  ⟨by decide, by decide,
    lineScore_eq_darkness_sum sampleField ⟨1, 0⟩ ⟨2, 2⟩ (by decide) (by decide)⟩

/-- C4: for in-bounds points `a` and `b` of a well-formed field, `reduceLine` succeeds, every
pixel at a point of `linePixels a b` reads `255` afterwards, and `lineScore` of the resulting
field on the chord `(a, b)` is `0`. -/
theorem reduceLine_whitens_line (field : Mat) (a b : Point) (hwf : field.WF)
    (ha : field.contains a) (hb : field.contains b) :
    ∃ field1, reduceLine field a b = some field1 ∧
      (∀ p ∈ linePixels a b, field1.read p.y p.x = some 255) ∧
      lineScore field1 a b = some 0 := by
  obtain ⟨m1, h1, hwf1, hr, hc, hpix, _⟩ := reduceLine_spec field hwf a b ha hb
  have hin1 : ∀ p ∈ linePixels a b, m1.contains p := fun p hp =>
    contains_of_dims field m1 hr hc p (linePixels_inside field a b ha hb p hp)
  have hread : ∀ p ∈ linePixels a b, m1.read p.y p.x = some 255 := by
    intro p hp
    rw [m1.read_eq_pixel hwf1 p (hin1 p hp), hpix p, if_pos hp]
  refine ⟨m1, h1, hread, ?_⟩
  rw [lineScore_eq m1 hwf1 a b (hin1 a (linePixels_mem_left a b))
    (hin1 b (linePixels_mem_right a b))]
  congr 1
  unfold lineDarkness
  apply List.sum_eq_zero
  intro v hv
  obtain ⟨p, hp, rfl⟩ := List.mem_map.1 hv
  simp [hpix p, hp]

theorem reduceLine_whitens_line_witness :
    sampleField.WF ∧ sampleField.contains ⟨1, 0⟩ ∧ sampleField.contains ⟨2, 2⟩ ∧
    ∃ field1, reduceLine sampleField ⟨1, 0⟩ ⟨2, 2⟩ = some field1 ∧
      (∀ p ∈ linePixels ⟨1, 0⟩ ⟨2, 2⟩, field1.read p.y p.x = some 255) ∧
      lineScore field1 ⟨1, 0⟩ ⟨2, 2⟩ = some 0 :=
  ⟨by decide, by decide, by decide,
    reduceLine_whitens_line sampleField ⟨1, 0⟩ ⟨2, 2⟩ (by decide) (by decide) (by decide)⟩

/-- C5: for every `stringCount`, at least one hook, all hooks inside a well-formed field, the
greedy loop yields a path of exactly `stringCount + 1` hook indices that starts with `0` and
whose entries are all below the number of hooks; `stringCount = 0` gives `[0]` and a single
hook gives a path of zeros. -/
theorem buildPath_length_and_range (stringCount : Nat) (hooks : List Point) (field : Mat)
    (hwf : field.WF) (hcount : 1 ≤ hooks.length) (hin : ∀ p ∈ hooks, field.contains p) :
    ∃ path out, buildPath stringCount hooks field = some (path, out) ∧
      path.length = stringCount + 1 ∧ path.head? = some 0 ∧
      (∀ i ∈ path, i < hooks.length) ∧
      (stringCount = 0 → path = [0]) ∧
      (hooks.length = 1 → path = List.replicate (stringCount + 1) 0) := by
  obtain ⟨path, out, hl, hlen, hmem, _⟩ :=
    stringLoop_spec hooks stringCount 0 field hwf hin (by omega)
  have hall : ∀ i ∈ 0 :: path, i < hooks.length := by
    intro i hi
    rcases List.mem_cons.1 hi with h | h
    · rw [h]; omega
    · exact hmem i h
  refine ⟨0 :: path, out, ?_, by simp [hlen], rfl, hall, ?_, ?_⟩
  · unfold buildPath
    rw [hl]
  · intro h0
    rw [h0] at hlen
    rw [List.length_eq_zero.1 hlen]
  · intro h1
    rw [List.eq_replicate_iff]
    refine ⟨by simp [hlen], ?_⟩
    intro i hi
    have := hall i hi
    omega

theorem buildPath_length_and_range_witness :
    sampleField.WF ∧ 1 ≤ sampleHooks.length ∧ (∀ p ∈ sampleHooks, sampleField.contains p) ∧
    ∃ path out, buildPath 3 sampleHooks sampleField = some (path, out) ∧
      path.length = 3 + 1 ∧ path.head? = some 0 ∧
      (∀ i ∈ path, i < sampleHooks.length) ∧
      (3 = 0 → path = [0]) ∧
      (sampleHooks.length = 1 → path = List.replicate (3 + 1) 0) :=
  ⟨by decide, by decide, by decide,
    buildPath_length_and_range 3 sampleHooks sampleField (by decide) (by decide) (by decide)⟩

/-- C7: for points `a` and `b` inside a well-formed field, every point of `linePixels a b` is
inside the field, so neither `lineScore` nor `reduceLine` reaches the out-of-bounds branch. -/
theorem linePixels_stay_inside (field : Mat) (a b : Point) (hwf : field.WF)
    (ha : field.contains a) (hb : field.contains b) :
    (∀ p ∈ linePixels a b, 0 ≤ p.x ∧ p.x < (field.cols : Int) ∧ 0 ≤ p.y ∧
      p.y < (field.rows : Int)) ∧
    (lineScore field a b).isSome = true ∧ (reduceLine field a b).isSome = true := by
  refine ⟨?_, ?_, ?_⟩
  · intro p hp
    have := linePixels_inside field a b ha hb p hp
    simp only [Mat.contains, Mat.inside] at this
    omega
  · rw [lineScore_eq field hwf a b ha hb]; rfl
  · obtain ⟨m1, h1, _⟩ := reduceLine_spec field hwf a b ha hb
    rw [h1]; rfl

theorem linePixels_stay_inside_witness :
    sampleField.WF ∧ sampleField.contains ⟨3, 0⟩ ∧ sampleField.contains ⟨0, 2⟩ ∧
    ((∀ p ∈ linePixels ⟨3, 0⟩ ⟨0, 2⟩, 0 ≤ p.x ∧ p.x < (sampleField.cols : Int) ∧ 0 ≤ p.y ∧
      p.y < (sampleField.rows : Int)) ∧
    (lineScore sampleField ⟨3, 0⟩ ⟨0, 2⟩).isSome = true ∧
    (reduceLine sampleField ⟨3, 0⟩ ⟨0, 2⟩).isSome = true) :=
  ⟨by decide, by decide, by decide,
    linePixels_stay_inside sampleField ⟨3, 0⟩ ⟨0, 2⟩ (by decide) (by decide) (by decide)⟩

/-- C10: one iteration of the greedy loop on a well-formed field with the hooks inside
succeeds, the sum of all pixel values afterwards is at least the sum before, and it is
strictly greater only if `lineScore` of the chosen chord, taken on the field before
`reduceLine`, was positive. -/
theorem stringStep_total_monotone (hooks : List Point) (field : Mat) (current : Nat)
    (hwf : field.WF) (hin : ∀ p ∈ hooks, field.contains p) (hcur : current < hooks.length) :
    ∃ next : Fin hooks.length, ∃ field1,
      stringStep hooks current field = some (next.val, field1) ∧
      field.total ≤ field1.total ∧
      (field.total < field1.total →
        ∃ s, lineScore field (hooks.get ⟨current, hcur⟩) (hooks.get next) = some s ∧ 0 < s) := by
  obtain ⟨next, img1, hnext, hs, _, hred, _⟩ := stringStep_spec hooks field current hwf hin hcur
  have hc := hin _ (List.get_mem hooks current hcur)
  have hn := hin _ (List.get_mem hooks next hnext)
  obtain ⟨m1, h1, _, _, _, _, hlo, hhi, _⟩ := reduceLine_spec field hwf _ _ hc hn
  rw [hred] at h1
  cases h1
  refine ⟨⟨next, hnext⟩, img1, hs, hlo, ?_⟩
  intro hlt
  exact ⟨_, lineScore_eq field hwf _ _ hc hn, by omega⟩

theorem stringStep_total_monotone_witness :
    sampleField.WF ∧ (∀ p ∈ sampleHooks, sampleField.contains p) ∧
    ∃ next : Fin sampleHooks.length, ∃ field1,
      stringStep sampleHooks 0 sampleField = some (next.val, field1) ∧
      sampleField.total ≤ field1.total ∧
      (sampleField.total < field1.total →
        ∃ s, lineScore sampleField (sampleHooks.get ⟨0, by decide⟩) (sampleHooks.get next) =
          some s ∧ 0 < s) :=
  ⟨by decide, by decide,
    stringStep_total_monotone sampleHooks sampleField 0 (by decide) (by decide) (by decide)⟩

/-! ## Reversal of a line -/

theorem linePixelsLoop_reflect (dx dy sx sy tx ty : Int) (a b t : Point) :
    ∀ (fuel : Nat) (p : Point) (e : Int),
      (tx = -sx ∨ (dx = 0 ∧ e = dy ∧ dy ≤ 0)) → (ty = -sy ∨ (dy = 0 ∧ e = dx ∧ 0 ≤ dx)) →
      linePixelsLoop dx dy tx ty (reflect a b t) fuel (reflect a b p) e =
        (linePixelsLoop dx dy sx sy t fuel p e).map (List.map (reflect a b)) := by
  intro fuel
  induction fuel with
  | zero => intro p e _ _; simp [linePixelsLoop]
  | succ fuel ih =>
    intro p e hx hy
    rw [linePixelsLoop, linePixelsLoop]
    by_cases hpt : p.x = t.x ∧ p.y = t.y
    · have hpt1 : (reflect a b p).x = (reflect a b t).x ∧ (reflect a b p).y = (reflect a b t).y := by
        simp only [reflect]; omega
      rw [if_pos hpt, if_pos hpt1]
      simp
    · have hpt1 : ¬ ((reflect a b p).x = (reflect a b t).x ∧
          (reflect a b p).y = (reflect a b t).y) := by
        simp only [reflect]; omega
      rw [if_neg hpt, if_neg hpt1]
      simp only
      have hx1 : 2 * e > dy → tx = -sx := by
        intro hc
        rcases hx with h | h
        · exact h
        · omega
      have hy1 : 2 * e < dx → ty = -sy := by
        intro hc
        rcases hy with h | h
        · exact h
        · omega
      have hpoint : Point.mk (if 2 * e > dy then (reflect a b p).x + tx else (reflect a b p).x)
            (if 2 * e < dx then (reflect a b p).y + ty else (reflect a b p).y) =
          reflect a b (Point.mk (if 2 * e > dy then p.x + sx else p.x)
            (if 2 * e < dx then p.y + sy else p.y)) := by
        rw [Point.eq_iff]
        constructor
        · by_cases c1 : 2 * e > dy
          · simp only [if_pos c1, reflect, hx1 c1]; omega
          · simp only [if_neg c1, reflect]
        · by_cases c2 : 2 * e < dx
          · simp only [if_pos c2, reflect, hy1 c2]; omega
          · simp only [if_neg c2, reflect]
      rw [hpoint, ih]
      · simp [Option.map_map, Function.comp_def]
      · rcases hx with h | h
        · exact Or.inl h
        · right
          refine ⟨h.1, ?_, h.2.2⟩
          have c1 : ¬ 2 * e > dy := by omega
          rw [if_neg c1]
          split <;> omega
      · rcases hy with h | h
        · exact Or.inl h
        · right
          refine ⟨h.1, ?_, h.2.2⟩
          have c2 : ¬ 2 * e < dx := by omega
          rw [if_neg c2]
          split <;> omega

theorem linePixels_reflect (a b : Point) :
    linePixels b a = (linePixels a b).map (reflect a b) := by
  have hb : reflect a b a = b := by simp [reflect, Point.eq_iff]
  have ha : reflect a b b = a := by simp [reflect, Point.eq_iff]
  have hfuel : (a.x - b.x).natAbs + (a.y - b.y).natAbs + 1 =
      (b.x - a.x).natAbs + (b.y - a.y).natAbs + 1 := by omega
  have key := linePixelsLoop_reflect |b.x - a.x| (-|b.y - a.y|)
    (if a.x < b.x then 1 else -1) (if a.y < b.y then 1 else -1)
    (if b.x < a.x then 1 else -1) (if b.y < a.y then 1 else -1) a b b
    ((b.x - a.x).natAbs + (b.y - a.y).natAbs + 1) a (|b.x - a.x| + -|b.y - a.y|)
    (by
      by_cases h1 : a.x < b.x
      · left; rw [if_pos h1, if_neg (by omega)]
      · by_cases h2 : b.x < a.x
        · left; rw [if_pos h2, if_neg h1]; simp
        · right
          have : b.x - a.x = 0 := by omega
          rw [this]; simp)
    (by
      by_cases h1 : a.y < b.y
      · left; rw [if_pos h1, if_neg (by omega)]
      · by_cases h2 : b.y < a.y
        · left; rw [if_pos h2, if_neg h1]; simp
        · right
          have : b.y - a.y = 0 := by omega
          rw [this]; simp)
  rw [ha, hb] at key
  unfold linePixels linePixelsFuel
  simp only
  rw [hfuel, abs_sub_comm a.x b.x, abs_sub_comm a.y b.y, key]
  cases linePixelsLoop |b.x - a.x| (-|b.y - a.y|) (if a.x < b.x then 1 else -1)
    (if a.y < b.y then 1 else -1) b ((b.x - a.x).natAbs + (b.y - a.y).natAbs + 1) a
    (|b.x - a.x| + -|b.y - a.y|) <;> simp

/-- C6 (as stated, refuted): the lines from `(0, 0)` to `(2, 1)` and back do not contain the
same points; `(1, 0)` lies on the first and not on the second. -/
theorem linePixels_not_symmetric :
    ¬ (∀ p : Point, p ∈ linePixels ⟨0, 0⟩ ⟨2, 1⟩ ↔ p ∈ linePixels ⟨2, 1⟩ ⟨0, 0⟩) := by
  intro h
  have h1 : (⟨1, 0⟩ : Point) ∈ linePixels ⟨0, 0⟩ ⟨2, 1⟩ := by decide
  have h2 : ¬ ((⟨1, 0⟩ : Point) ∈ linePixels ⟨2, 1⟩ ⟨0, 0⟩) := by decide
  exact h2 ((h _).1 h1)

/-- C6 (amended): `linePixels b a` is the point reflection of `linePixels a b` through the
midpoint of `a` and `b`, point by point: its `k`-th point is `a + b - p` for the `k`-th point
`p` of `linePixels a b`.  Hence both lists have the same length, and a point lies on the line
from `b` to `a` exactly when its reflection lies on the line from `a` to `b`. -/
theorem linePixels_reverse_is_reflection (a b : Point) :
    linePixels b a = (linePixels a b).map (reflect a b) ∧
    (linePixels b a).length = (linePixels a b).length ∧
    (∀ p : Point, p ∈ linePixels b a ↔ reflect a b p ∈ linePixels a b) := by
  have h := linePixels_reflect a b
  refine ⟨h, by rw [h, List.length_map], ?_⟩
  intro p
  have hinv : ∀ q : Point, reflect a b (reflect a b q) = q := by
    intro q; simp [reflect, Point.eq_iff]
  rw [h, List.mem_map]
  constructor
  · rintro ⟨q, hq, rfl⟩
    rw [hinv]; exact hq
  · intro hp
    exact ⟨_, hp, hinv p⟩

/-! ## Hook geometry and the end-to-end scenario -/

theorem roundNat_small (n : Nat) (h : n < 2 ^ 24) : roundNat n = n := by
  have hs : mantissaShift (103 + 1) n = 0 := by
    rw [mantissaShift, if_pos h]
  unfold roundNat
  simp only [hs, pow_zero, Nat.mod_one, Nat.div_one, Nat.mul_one]
  simp

theorem roundBinary32_small (z : Int) (h : z.natAbs < 2 ^ 24) : roundBinary32 z = z := by
  unfold roundBinary32
  rw [roundNat_small _ h]
  split <;> omega

theorem binary32Env_exactAtZero : binary32Env.ExactAtZero := by
  intro c radius number _ hb
  have h0 : roundBinary32 0 = 0 := roundBinary32_small 0 (by decide)
  have hc : roundBinary32 c = c := roundBinary32_small c (by omega)
  have hr : roundBinary32 (radius : Int) = radius := roundBinary32_small _ (by omega)
  have hcr : roundBinary32 (c + radius) = c + radius := roundBinary32_small _ (by omega)
  simp [FloatEnv.hookX, FloatEnv.hookY, binary32Env, cosQuarter, sinQuarter, h0, hc, hr, hcr]

theorem calcHooks_head (F : FloatEnv) (number : Nat) (center : Point) (radius : Nat)
    (hn : 0 < number) :
    (calcHooks F number center radius).head? =
      some { x := F.hookX center.x radius number 0, y := F.hookY center.y radius number 0 } := by
  obtain ⟨k, rfl⟩ := Nat.exists_eq_succ_of_ne_zero (Nat.pos_iff_ne_zero.1 hn)
  simp [calcHooks, List.range_succ_eq_map]

/-- C8 (the code at the failing input): for the even side `size = 2` and one hook,
`center = (1, 1)` and `radius = 1`, so hook `0` is `(2, 1)` in every floating-point
environment that is exact at angle `0`: its `x` is not below `size`. -/
theorem mainHooks_even_size_outside :
    binary32Env.ExactAtZero ∧
    ∀ F : FloatEnv, F.ExactAtZero →
      ¬ (∀ p ∈ mainHooks F 2 1, 0 ≤ p.x ∧ p.x < 2 ∧ 0 ≤ p.y ∧ p.y < 2) := by
  refine ⟨binary32Env_exactAtZero, ?_⟩
  intro F hF hall
  have h0 := hF 1 1 1 (by decide) (by decide)
  have hmem : (⟨F.hookX 1 1 1 0, F.hookY 1 1 1 0⟩ : Point) ∈ mainHooks F 2 1 := by
    simp [mainHooks, calcHooks]
  have := hall _ hmem
  simp only [h0.1] at this
  omega

theorem int32_of_fits (z : Int) (h1 : -2 ^ 31 ≤ z) (h2 : z < 2 ^ 31) : int32 z = some z := by
  unfold int32
  rw [if_pos ⟨h1, h2⟩]

theorem linePixelsLoop32_eq (dx dy sx sy : Int) (b : Point)
    (hdxb : dx ≤ 2 ^ 29) (hdyb : -2 ^ 29 ≤ dy)
    (hbx : -2 ^ 28 ≤ b.x ∧ b.x ≤ 2 ^ 28) (hby : -2 ^ 28 ≤ b.y ∧ b.y ≤ 2 ^ 28) :
    ∀ (fuel : Nat) (p : Point) (e : Int) (rx ry : Nat),
      LineInv dx dy sx sy b p e rx ry → 3 * dy ≤ 2 * e → 2 * e ≤ 3 * dx →
      linePixelsLoop32 dx dy sx sy b fuel p e = linePixelsLoop dx dy sx sy b fuel p e := by
  intro fuel
  induction fuel with
  | zero => intro p e rx ry _ _ _; rfl
  | succ fuel ih =>
    intro p e rx ry inv hlo hhi
    obtain ⟨hdx, hdy, hsx, hsy, hrx, hry, hx, hy, he⟩ := inv
    rw [linePixelsLoop32, linePixelsLoop]
    by_cases hpb : p.x = b.x ∧ p.y = b.y
    · rw [if_pos hpb, if_pos hpb]
    · rw [if_neg hpb, if_neg hpb]
      have hnot0 : rx ≠ 0 ∨ ry ≠ 0 := by
        by_contra hcon
        push_neg at hcon
        obtain ⟨h1, h2⟩ := hcon
        subst h1 h2
        apply hpb
        simp at hx hy
        exact ⟨hx.symm, hy.symm⟩
      have hX : 2 * e > dy → rx ≠ 0 := by
        intro hgt h0
        subst h0
        have hry1 : (1 : Int) ≤ ry := by omega
        have hm : 0 ≤ ((ry : Int) - 1) * dx := mul_nonneg (by omega) hdx
        simp at he
        nlinarith
      have hY : 2 * e < dx → ry ≠ 0 := by
        intro hlt h0
        subst h0
        have hrx1 : (1 : Int) ≤ rx := by omega
        have hm : 0 ≤ ((rx : Int) - 1) * (-dy) := mul_nonneg (by omega) (by omega)
        simp at he
        nlinarith
      have hpx : -2 ^ 30 ≤ p.x ∧ p.x ≤ 2 ^ 30 := by
        rcases hsx with h | h <;> subst h <;> omega
      have hpy : -2 ^ 30 ≤ p.y ∧ p.y ≤ 2 ^ 30 := by
        rcases hsy with h | h <;> subst h <;> omega
      have hsxb : -1 ≤ sx ∧ sx ≤ 1 := by rcases hsx with h | h <;> subst h <;> omega
      have hsyb : -1 ≤ sy ∧ sy ≤ 1 := by rcases hsy with h | h <;> subst h <;> omega
      rw [int32_of_fits (2 * e) (by omega) (by omega)]
      simp only
      by_cases c1 : 2 * e > dy <;> by_cases c2 : 2 * e < dx
      · obtain ⟨rx', rfl⟩ := Nat.exists_eq_succ_of_ne_zero (hX c1)
        obtain ⟨ry', rfl⟩ := Nat.exists_eq_succ_of_ne_zero (hY c2)
        simp only [if_pos c1, if_pos c2]
        rw [int32_of_fits (e + dy) (by omega) (by omega),
          int32_of_fits (p.x + sx) (by omega) (by omega)]
        simp only
        rw [int32_of_fits (e + dy + dx) (by omega) (by omega),
          int32_of_fits (p.y + sy) (by omega) (by omega)]
        simp only
        rw [ih { x := p.x + sx, y := p.y + sy } (e + dy + dx) rx' ry'
          ⟨hdx, hdy, hsx, hsy, by push_cast at hrx; omega, by push_cast at hry; omega,
            by push_cast at hx; simp only; linarith, by push_cast at hy; simp only; linarith,
            by push_cast at he; linarith⟩ (by omega) (by omega)]
      · obtain ⟨rx', rfl⟩ := Nat.exists_eq_succ_of_ne_zero (hX c1)
        simp only [if_pos c1, if_neg c2]
        rw [int32_of_fits (e + dy) (by omega) (by omega),
          int32_of_fits (p.x + sx) (by omega) (by omega)]
        simp only
        rw [ih { x := p.x + sx, y := p.y } (e + dy) rx' ry
          ⟨hdx, hdy, hsx, hsy, by push_cast at hrx; omega, hry,
            by push_cast at hx; simp only; linarith, hy,
            by push_cast at he; linarith⟩ (by omega) (by omega)]
      · obtain ⟨ry', rfl⟩ := Nat.exists_eq_succ_of_ne_zero (hY c2)
        simp only [if_neg c1, if_pos c2]
        rw [int32_of_fits (e + dx) (by omega) (by omega),
          int32_of_fits (p.y + sy) (by omega) (by omega)]
        simp only
        rw [ih { x := p.x, y := p.y + sy } (e + dx) rx ry'
          ⟨hdx, hdy, hsx, hsy, hrx, by push_cast at hry; omega,
            hx, by push_cast at hy; simp only; linarith,
            by push_cast at he; linarith⟩ (by omega) (by omega)]
      · exfalso
        have h1 : dx = 0 := by omega
        have h2 : dy = 0 := by omega
        omega

/-- For points whose coordinates lie in `[-2 ^ 28, 2 ^ 28]`, no `int` operation of
`linePixels` overflows: the run with checked 32-bit arithmetic is the run over the
integers. -/
theorem linePixelsFuel32_eq (fuel : Nat) (a b : Point)
    (hax : -2 ^ 28 ≤ a.x ∧ a.x ≤ 2 ^ 28) (hay : -2 ^ 28 ≤ a.y ∧ a.y ≤ 2 ^ 28)
    (hbx : -2 ^ 28 ≤ b.x ∧ b.x ≤ 2 ^ 28) (hby : -2 ^ 28 ≤ b.y ∧ b.y ≤ 2 ^ 28) :
    linePixelsFuel32 fuel a b = linePixelsFuel fuel a b := by
  have h1 : |b.x - a.x| ≤ 2 ^ 29 := by rw [abs_le]; omega
  have h2 : |b.y - a.y| ≤ 2 ^ 29 := by rw [abs_le]; omega
  have h3 := abs_nonneg (b.x - a.x)
  have h4 := abs_nonneg (b.y - a.y)
  unfold linePixelsFuel32 linePixelsFuel
  rw [int32_of_fits (b.x - a.x) (by omega) (by omega),
    int32_of_fits (b.y - a.y) (by omega) (by omega)]
  simp only
  rw [int32_of_fits |b.x - a.x| (by omega) (by omega),
    int32_of_fits |b.y - a.y| (by omega) (by omega)]
  simp only
  rw [int32_of_fits (-|b.y - a.y|) (by omega) (by omega)]
  simp only
  rw [int32_of_fits (|b.x - a.x| + -|b.y - a.y|) (by omega) (by omega)]
  simp only
  exact linePixelsLoop32_eq _ _ _ _ b h1 (by omega) hbx hby fuel a _ _ _ (lineInv_init a b)
    (by omega) (by omega)

theorem linePixelsFuel32_eq_witness :
    linePixelsFuel32 9 ⟨0, 0⟩ ⟨5, 2⟩ = linePixelsFuel 9 ⟨0, 0⟩ ⟨5, 2⟩ :=
  linePixelsFuel32_eq 9 ⟨0, 0⟩ ⟨5, 2⟩ (by decide) (by decide) (by decide) (by decide)

/-! ## Length of a line and absence of repeated points -/

/-- One iteration of the loop of `linePixels` away from `b` keeps the invariant: a step in `x`
is taken only while steps in `x` remain, likewise in `y`, and at least one step is taken. -/
theorem lineInv_step {dx dy sx sy : Int} {b p : Point} {e : Int} {rx ry : Nat}
    (inv : LineInv dx dy sx sy b p e rx ry) (hpb : ¬ (p.x = b.x ∧ p.y = b.y)) :
    ∃ rx1 ry1 : Nat,
      LineInv dx dy sx sy b
        (Point.mk (if 2 * e > dy then p.x + sx else p.x) (if 2 * e < dx then p.y + sy else p.y))
        (if 2 * e < dx then (if 2 * e > dy then e + dy else e) + dx
          else (if 2 * e > dy then e + dy else e)) rx1 ry1 ∧
      rx = rx1 + (if 2 * e > dy then 1 else 0) ∧ ry = ry1 + (if 2 * e < dx then 1 else 0) ∧
      (2 * e > dy ∨ 2 * e < dx) := by
  obtain ⟨hdx, hdy, hsx, hsy, hrx, hry, hx, hy, he⟩ := inv
  have hnot0 : rx ≠ 0 ∨ ry ≠ 0 := by
    by_contra hcon
    push_neg at hcon
    obtain ⟨h1, h2⟩ := hcon
    subst h1 h2
    apply hpb
    simp at hx hy
    exact ⟨hx.symm, hy.symm⟩
  have hX : 2 * e > dy → rx ≠ 0 := by
    intro hgt h0
    subst h0
    have hry1 : (1 : Int) ≤ ry := by omega
    have hm : 0 ≤ ((ry : Int) - 1) * dx := mul_nonneg (by omega) hdx
    simp at he
    nlinarith
  have hY : 2 * e < dx → ry ≠ 0 := by
    intro hlt h0
    subst h0
    have hrx1 : (1 : Int) ≤ rx := by omega
    have hm : 0 ≤ ((rx : Int) - 1) * (-dy) := mul_nonneg (by omega) (by omega)
    simp at he
    nlinarith
  by_cases c1 : 2 * e > dy <;> by_cases c2 : 2 * e < dx
  · obtain ⟨rx', rfl⟩ := Nat.exists_eq_succ_of_ne_zero (hX c1)
    obtain ⟨ry', rfl⟩ := Nat.exists_eq_succ_of_ne_zero (hY c2)
    refine ⟨rx', ry', ?_, by simp [c1], by simp [c2], Or.inl c1⟩
    simp only [if_pos c1, if_pos c2]
    exact ⟨hdx, hdy, hsx, hsy, by push_cast at hrx; omega, by push_cast at hry; omega,
      by push_cast at hx; simp only; linarith, by push_cast at hy; simp only; linarith,
      by push_cast at he; linarith⟩
  · obtain ⟨rx', rfl⟩ := Nat.exists_eq_succ_of_ne_zero (hX c1)
    refine ⟨rx', ry, ?_, by simp [c1], by simp [c2], Or.inl c1⟩
    simp only [if_pos c1, if_neg c2]
    exact ⟨hdx, hdy, hsx, hsy, by push_cast at hrx; omega, hry,
      by push_cast at hx; simp only; linarith, hy, by push_cast at he; linarith⟩
  · obtain ⟨ry', rfl⟩ := Nat.exists_eq_succ_of_ne_zero (hY c2)
    refine ⟨rx, ry', ?_, by simp [c1], by simp [c2], Or.inr c2⟩
    simp only [if_neg c1, if_pos c2]
    exact ⟨hdx, hdy, hsx, hsy, hrx, by push_cast at hry; omega,
      hx, by push_cast at hy; simp only; linarith, by push_cast at he; linarith⟩
  · exfalso
    have h1 : dx = 0 := by omega
    have h2 : dy = 0 := by omega
    omega

/-- In an `x`-major line (`|dy| ≤ dx`) every iteration steps in `x`, so the loop returns at
most one point per remaining step in `x`, plus the end point. -/
theorem linePixelsLoop_length_xmajor (dx dy sx sy : Int) (b : Point) :
    ∀ (fuel : Nat) (p : Point) (e : Int) (rx ry : Nat) (l : List Point),
      LineInv dx dy sx sy b p e rx ry →
      ((0 < dx + dy ∧ dx + 2 * dy ≤ 2 * e) ∨ (dx + dy = 0 ∧ e = 0)) →
      linePixelsLoop dx dy sx sy b fuel p e = some l → l.length ≤ rx + 1 := by
  intro fuel
  induction fuel with
  | zero => intro p e rx ry l _ _ h; simp [linePixelsLoop] at h
  | succ fuel ih =>
    intro p e rx ry l inv hextra h
    rw [linePixelsLoop] at h
    by_cases hpb : p.x = b.x ∧ p.y = b.y
    · rw [if_pos hpb] at h
      cases h
      simp
    · rw [if_neg hpb] at h
      simp only [Option.map_eq_some'] at h
      obtain ⟨t, ht, rfl⟩ := h
      obtain ⟨rx1, ry1, inv1, hrx, hry, hstep⟩ := lineInv_step inv hpb
      have hdx := inv.hdx
      have hdy := inv.hdy
      have hrxb := inv.hrx
      have hryb := inv.hry
      have c1 : 2 * e > dy := by
        rcases hextra with hx | hx
        · omega
        · have : 0 < dx := by
            by_contra hcon
            have h1 : dx = 0 := by omega
            have h2 : dy = 0 := by omega
            rw [h1, h2] at hstep
            omega
          omega
      rw [if_pos c1] at hrx
      have := ih _ _ rx1 ry1 t inv1 (by
        rcases hextra with hx | hx
        · left
          refine ⟨hx.1, ?_⟩
          rw [if_pos c1]
          split <;> omega
        · right
          refine ⟨hx.1, ?_⟩
          have c2 : 2 * e < dx := by omega
          rw [if_pos c2, if_pos c1]
          omega) ht
      simp only [List.length_cons]
      omega

/-- In a `y`-major line (`dx ≤ |dy|`) every iteration steps in `y`. -/
theorem linePixelsLoop_length_ymajor (dx dy sx sy : Int) (b : Point) :
    ∀ (fuel : Nat) (p : Point) (e : Int) (rx ry : Nat) (l : List Point),
      LineInv dx dy sx sy b p e rx ry → dx + dy < 0 → 2 * e ≤ 2 * dx + dy →
      linePixelsLoop dx dy sx sy b fuel p e = some l → l.length ≤ ry + 1 := by
  intro fuel
  induction fuel with
  | zero => intro p e rx ry l _ _ _ h; simp [linePixelsLoop] at h
  | succ fuel ih =>
    intro p e rx ry l inv hmajor hextra h
    rw [linePixelsLoop] at h
    by_cases hpb : p.x = b.x ∧ p.y = b.y
    · rw [if_pos hpb] at h
      cases h
      simp
    · rw [if_neg hpb] at h
      simp only [Option.map_eq_some'] at h
      obtain ⟨t, ht, rfl⟩ := h
      obtain ⟨rx1, ry1, inv1, hrx, hry, hstep⟩ := lineInv_step inv hpb
      have hdx := inv.hdx
      have hdy := inv.hdy
      have c2 : 2 * e < dx := by omega
      rw [if_pos c2] at hry
      have := ih _ _ rx1 ry1 t inv1 hmajor (by
        rw [if_pos c2]
        split <;> omega) ht
      simp only [List.length_cons]
      omega

theorem linePixels_self (a : Point) : linePixels a a = [a] := by
  simp [linePixels, linePixelsFuel, linePixelsLoop]

/-- C12: the number of points returned by `linePixels a b` is at most
`max |bx - ax| |by - ay| + 1`, and `linePixels a a` is the single-point list `[a]`. -/
theorem linePixels_length_le_max (a b : Point) :
    (linePixels a b).length ≤ max (b.x - a.x).natAbs (b.y - a.y).natAbs + 1 ∧
    linePixels a a = [a] := by
  refine ⟨?_, linePixels_self a⟩
  have h := (linePixels_walk a b).1
  unfold linePixelsFuel at h
  have inv := lineInv_init a b
  have e1 : |b.x - a.x| = ((b.x - a.x).natAbs : Int) := Int.abs_eq_natAbs _
  have e2 : |b.y - a.y| = ((b.y - a.y).natAbs : Int) := Int.abs_eq_natAbs _
  by_cases hmajor : |b.y - a.y| ≤ |b.x - a.x|
  · have := linePixelsLoop_length_xmajor _ _ _ _ b _ a _ _ _ (linePixels a b) inv
      (by
        by_cases heq : |b.x - a.x| + -|b.y - a.y| = 0
        · right; exact ⟨heq, heq⟩
        · left; constructor <;> omega) h
    omega
  · have := linePixelsLoop_length_ymajor _ _ _ _ b _ a _ _ _ (linePixels a b) inv
      (by omega) (by omega) h
    omega

/-- C13: the list returned by `linePixels a b` contains no point twice. -/
theorem linePixels_nodup (a b : Point) : (linePixels a b).Nodup :=
  (linePixels_walk a b).2.nodup (stepSign_cases _ _) (stepSign_cases _ _)

/-! ## Whitening an already white line -/

theorem set_of_getElem? : ∀ (l : List Nat) (i v : Nat), l[i]? = some v → l.set i v = l
  | [], _, _, h => by simp at h
  | x :: xs, 0, v, h => by
    simp at h
    simp [h]
  | x :: xs, i + 1, v, h => by
    simp only [List.getElem?_cons_succ] at h
    simp only [List.set_cons_succ, set_of_getElem? xs i v h]

theorem Mat.write_same (m : Mat) (p : Point) (v : Nat) (h : m.read p.y p.x = some v) :
    m.write p.y p.x v = some m := by
  unfold Mat.read at h
  unfold Mat.write
  by_cases hin : m.inside p.y p.x
  · rw [if_pos hin] at h ⊢
    rw [set_of_getElem? _ _ _ h]
  · rw [if_neg hin] at h
    cases h

theorem reduceLineLoop_white (m : Mat) :
    ∀ (pts : List Point), (∀ p ∈ pts, m.read p.y p.x = some 255) →
      reduceLineLoop m pts = some m
  | [], _ => rfl
  | p :: ps, h => by
    rw [reduceLineLoop, m.write_same p 255 (h p (List.mem_cons_self _ _))]
    exact reduceLineLoop_white m ps (fun q hq => h q (List.mem_cons_of_mem _ hq))

/-! ## Claims on the field mutator, the configuration and the self-chord -/

/-- C11: for in-bounds points `a`, `b` of a well-formed field, `reduceLine` succeeds, the value
at every pixel position afterwards is at least the value before, and all values of the
resulting field are at most `255` (they are natural numbers, so at least `0`). -/
theorem reduceLine_never_darkens (field : Mat) (a b : Point) (hwf : field.WF)
    (ha : field.contains a) (hb : field.contains b) :
    ∃ field1, reduceLine field a b = some field1 ∧
      (∀ p, field.contains p → ∃ v0 v1, field.read p.y p.x = some v0 ∧
        field1.read p.y p.x = some v1 ∧ v0 ≤ v1 ∧ v1 ≤ 255) ∧
      (∀ v ∈ field1.data, v ≤ 255) := by
  obtain ⟨m1, h1, hwf1, hr, hc, hpix, _⟩ := reduceLine_spec field hwf a b ha hb
  refine ⟨m1, h1, ?_, hwf1.2.1⟩
  intro p hp
  refine ⟨field.pixel p, m1.pixel p, field.read_eq_pixel hwf p hp,
    m1.read_eq_pixel hwf1 p (contains_of_dims field m1 hr hc p hp), ?_, m1.pixel_le hwf1 p⟩
  rw [hpix p]
  split
  · exact field.pixel_le hwf p
  · exact le_refl _

theorem reduceLine_never_darkens_witness :
    sampleField.WF ∧ sampleField.contains ⟨1, 0⟩ ∧ sampleField.contains ⟨2, 2⟩ ∧
    ∃ field1, reduceLine sampleField ⟨1, 0⟩ ⟨2, 2⟩ = some field1 ∧
      (∀ p, sampleField.contains p → ∃ v0 v1, sampleField.read p.y p.x = some v0 ∧
        field1.read p.y p.x = some v1 ∧ v0 ≤ v1 ∧ v1 ≤ 255) ∧
      (∀ v ∈ field1.data, v ≤ 255) :=
  ⟨by decide, by decide, by decide,
    reduceLine_never_darkens sampleField ⟨1, 0⟩ ⟨2, 2⟩ (by decide) (by decide) (by decide)⟩

/-- C14: `reduceLine` is idempotent: for in-bounds points `a`, `b` of a well-formed field,
applying `reduceLine` to its own result returns that result unchanged. -/
theorem reduceLine_idempotent (field : Mat) (a b : Point) (hwf : field.WF)
    (ha : field.contains a) (hb : field.contains b) :
    ∃ field1, reduceLine field a b = some field1 ∧ reduceLine field1 a b = some field1 := by
  obtain ⟨m1, h1, hwf1, hr, hc, hpix, _⟩ := reduceLine_spec field hwf a b ha hb
  refine ⟨m1, h1, ?_⟩
  apply reduceLineLoop_white
  intro p hp
  rw [m1.read_eq_pixel hwf1 p
    (contains_of_dims field m1 hr hc p (linePixels_inside field a b ha hb p hp)),
    hpix p, if_pos hp]

theorem reduceLine_idempotent_witness :
    sampleField.WF ∧ sampleField.contains ⟨1, 0⟩ ∧ sampleField.contains ⟨2, 2⟩ ∧
    ∃ field1, reduceLine sampleField ⟨1, 0⟩ ⟨2, 2⟩ = some field1 ∧
      reduceLine field1 ⟨1, 0⟩ ⟨2, 2⟩ = some field1 :=
  ⟨by decide, by decide, by decide,
    reduceLine_idempotent sampleField ⟨1, 0⟩ ⟨2, 2⟩ (by decide) (by decide) (by decide)⟩

/-- C19: for in-bounds points `a`, `b` of a well-formed field, the sum of all pixel values
after `reduceLine` is the sum before plus `lineScore` of the chord on the field before the
call; hence the sum strictly increases exactly when that score is positive. -/
theorem reduceLine_total_eq_add_score (field : Mat) (a b : Point) (hwf : field.WF)
    (ha : field.contains a) (hb : field.contains b) :
    ∃ field1 score, reduceLine field a b = some field1 ∧ lineScore field a b = some score ∧
      field1.total = field.total + score ∧ (field.total < field1.total ↔ 0 < score) := by
  obtain ⟨m1, h1, _, _, _, _, _, _, heq⟩ := reduceLine_spec field hwf a b ha hb
  refine ⟨m1, lineDarkness field a b, h1, lineScore_eq field hwf a b ha hb, heq, ?_⟩
  omega

theorem reduceLine_total_eq_add_score_witness :
    sampleField.WF ∧ sampleField.contains ⟨1, 0⟩ ∧ sampleField.contains ⟨2, 2⟩ ∧
    ∃ field1 score, reduceLine sampleField ⟨1, 0⟩ ⟨2, 2⟩ = some field1 ∧
      lineScore sampleField ⟨1, 0⟩ ⟨2, 2⟩ = some score ∧
      field1.total = sampleField.total + score ∧
      (sampleField.total < field1.total ↔ 0 < score) :=
  ⟨by decide, by decide, by decide,
    reduceLine_total_eq_add_score sampleField ⟨1, 0⟩ ⟨2, 2⟩ (by decide) (by decide)
      (by decide)⟩

/-- C20: for in-bounds points `a`, `b` of a well-formed field, `reduceLine` leaves the
dimensions and the buffer length unchanged and leaves unchanged every pixel whose position
is not a point of `linePixels a b`. -/
theorem reduceLine_frame (field : Mat) (a b : Point) (hwf : field.WF)
    (ha : field.contains a) (hb : field.contains b) :
    ∃ field1, reduceLine field a b = some field1 ∧
      field1.rows = field.rows ∧ field1.cols = field.cols ∧
      field1.data.length = field.data.length ∧
      (∀ q, field.contains q → q ∉ linePixels a b →
        field1.read q.y q.x = field.read q.y q.x) := by
  obtain ⟨m1, h1, hwf1, hr, hc, hpix, _⟩ := reduceLine_spec field hwf a b ha hb
  refine ⟨m1, h1, hr, hc, ?_, ?_⟩
  · rw [hwf1.1, hwf.1, hr, hc]
  · intro q hq hnot
    rw [m1.read_eq_pixel hwf1 q (contains_of_dims field m1 hr hc q hq),
      field.read_eq_pixel hwf q hq, hpix q, if_neg hnot]

theorem reduceLine_frame_witness :
    sampleField.WF ∧ sampleField.contains ⟨1, 0⟩ ∧ sampleField.contains ⟨2, 2⟩ ∧
    ∃ field1, reduceLine sampleField ⟨1, 0⟩ ⟨2, 2⟩ = some field1 ∧
      field1.rows = sampleField.rows ∧ field1.cols = sampleField.cols ∧
      field1.data.length = sampleField.data.length ∧
      (∀ q, sampleField.contains q → q ∉ linePixels ⟨1, 0⟩ ⟨2, 2⟩ →
        field1.read q.y q.x = sampleField.read q.y q.x) :=
  ⟨by decide, by decide, by decide,
    reduceLine_frame sampleField ⟨1, 0⟩ ⟨2, 2⟩ (by decide) (by decide) (by decide)⟩

/-- C18 (as stated, refuted): in the first iteration on `darkHookField`, `nextHook` returns the
current hook `0` although the chord from hook `0` to itself scores `255`. -/
theorem nextHook_self_chord_wins :
    darkHookField.WF ∧ (∀ p ∈ darkHookHooks, darkHookField.contains p) ∧
    nextHook 0 darkHookHooks darkHookField = some 0 ∧
    lineScore darkHookField ⟨0, 0⟩ ⟨0, 0⟩ = some 255 := by
  decide

theorem lineScore_self (field : Mat) (hwf : field.WF) (a : Point) (ha : field.contains a) :
    lineScore field a a = some (255 - field.pixel a) := by
  rw [lineScore_eq field hwf a a ha ha]
  simp [lineDarkness, linePixels_self]

/-- C18 (amended): the chord from a hook to itself scores `255 - pixel` of the hook's own
pixel; one iteration of the loop leaves the pixel of the chosen hook at `255`, so in every
iteration after the first the chord from the current hook to itself scores `0`. -/
theorem stringStep_self_chord_zero (hooks : List Point) (field : Mat) (current : Nat)
    (hwf : field.WF) (hin : ∀ p ∈ hooks, field.contains p) (hcur : current < hooks.length) :
    lineScore field (hooks.get ⟨current, hcur⟩) (hooks.get ⟨current, hcur⟩) =
      some (255 - field.pixel (hooks.get ⟨current, hcur⟩)) ∧
    ∃ next : Fin hooks.length, ∃ field1,
      stringStep hooks current field = some (next.val, field1) ∧
      field1.read (hooks.get next).y (hooks.get next).x = some 255 ∧
      lineScore field1 (hooks.get next) (hooks.get next) = some 0 := by
  have hc := hin _ (List.get_mem hooks current hcur)
  refine ⟨lineScore_self field hwf _ hc, ?_⟩
  obtain ⟨next, img1, hnext, hs, _, hred, hwf1, hr, hcl⟩ :=
    stringStep_spec hooks field current hwf hin hcur
  have hn := hin _ (List.get_mem hooks next hnext)
  obtain ⟨m1, h1, _, _, _, hpix, _⟩ := reduceLine_spec field hwf _ _ hc hn
  rw [hred] at h1
  cases h1
  have hn1 : img1.contains (hooks.get ⟨next, hnext⟩) := contains_of_dims field img1 hr hcl _ hn
  have hwhite : img1.pixel (hooks.get ⟨next, hnext⟩) = 255 := by
    rw [hpix, if_pos (linePixels_mem_right _ _)]
  refine ⟨⟨next, hnext⟩, img1, hs, ?_, ?_⟩
  · rw [img1.read_eq_pixel hwf1 _ hn1, hwhite]
  · rw [lineScore_self img1 hwf1 _ hn1, hwhite]

theorem stringStep_self_chord_zero_witness :
    darkHookField.WF ∧ (∀ p ∈ darkHookHooks, darkHookField.contains p) ∧
    (lineScore darkHookField (darkHookHooks.get ⟨0, by decide⟩)
        (darkHookHooks.get ⟨0, by decide⟩) =
      some (255 - darkHookField.pixel (darkHookHooks.get ⟨0, by decide⟩)) ∧
    ∃ next : Fin darkHookHooks.length, ∃ field1,
      stringStep darkHookHooks 0 darkHookField = some (next.val, field1) ∧
      field1.read (darkHookHooks.get next).y (darkHookHooks.get next).x = some 255 ∧
      lineScore field1 (darkHookHooks.get next) (darkHookHooks.get next) = some 0) :=
  ⟨by decide, by decide,
    stringStep_self_chord_zero darkHookHooks darkHookField 0 (by decide) (by decide)
      (by decide)⟩

/-! ## Number of hooks and the hook at angle zero -/

theorem calcHooks_length (F : FloatEnv) (number : Nat) (center : Point) (radius : Nat) :
    (calcHooks F number center radius).length = number := by
  simp [calcHooks]

/-- C15 (as stated, refuted): with `center = (2 ^ 24, 0)` and `radius = 1` the `float` sum
`center.x + radius` is rounded to `2 ^ 24`, so hook `0` is `(16777216, 0)` and not
`(16777217, 0)`; the arithmetic used is exact at angle `0` below `2 ^ 24`. -/
theorem calcHooks_first_hook_rounded :
    binary32Env.ExactAtZero ∧
    (calcHooks binary32Env 1 ⟨16777216, 0⟩ 1).head? = some ⟨16777216, 0⟩ ∧
    (calcHooks binary32Env 1 ⟨16777216, 0⟩ 1).head? ≠ some ⟨16777216 + 1, 0⟩ := by
  refine ⟨binary32Env_exactAtZero, by decide, by decide⟩

/-- C15 (amended): `calcHooks` returns exactly `number` points, and in a floating-point
environment that is exact at angle `0`, for `number ≥ 1` and coordinates with
`|center| + radius < 2 ^ 24`, the point at index `0` is `(center.x + radius, center.y)`. -/
theorem calcHooks_length_and_first (F : FloatEnv) (hexact : F.ExactAtZero) (number : Nat)
    (center : Point) (radius : Nat) (hx : center.x.natAbs + radius < 2 ^ 24)
    (hy : center.y.natAbs + radius < 2 ^ 24) :
    (calcHooks F number center radius).length = number ∧
    (1 ≤ number → (calcHooks F number center radius).head? =
      some { x := center.x + radius, y := center.y }) := by
  refine ⟨calcHooks_length F number center radius, ?_⟩
  intro hn
  rw [calcHooks_head F number center radius (by omega), (hexact center.x radius number (by omega) hx).1,
    (hexact center.y radius number (by omega) hy).2]

theorem calcHooks_length_and_first_witness :
    binary32Env.ExactAtZero ∧ (5 : Int).natAbs + 5 < 2 ^ 24 ∧
    ((calcHooks binary32Env 4 ⟨5, 5⟩ 5).length = 4 ∧
    (1 ≤ 4 → (calcHooks binary32Env 4 ⟨5, 5⟩ 5).head? =
      some { x := (5 : Int) + ((5 : Nat) : Int), y := 5 })) :=
  ⟨binary32Env_exactAtZero, by decide,
    calcHooks_length_and_first binary32Env binary32Env_exactAtZero 4 ⟨5, 5⟩ 5 (by decide)
      (by decide)⟩

/-! ## Conversion of the hook coordinates to integers -/

theorem hookX_eq_toInt (F : FloatEnv) (c : Int) (radius number i : Nat) :
    F.hookX c radius number i = F.toInt (F.hookXVal c radius number i) := rfl

theorem hookY_eq_toInt (F : FloatEnv) (c : Int) (radius number i : Nat) :
    F.hookY c radius number i = F.toInt (F.hookYVal c radius number i) := rfl

theorem eighthEnv_toInt (v : ℚ) (h1 : -(2 : ℚ) ^ 31 - 1 < v) (h2 : v < (2 : ℚ) ^ 31) :
    eighthEnv.toInt v = if 0 ≤ v then ⌊v⌋ else ⌈v⌉ := by
  show (if -(2 : ℚ) ^ 31 - 1 < v ∧ v < (2 : ℚ) ^ 31 then (if 0 ≤ v then ⌊v⌋ else ⌈v⌉)
    else -2 ^ 31) = _
  rw [if_pos ⟨h1, h2⟩]

theorem eighthEnv_truncates : eighthEnv.Truncates eighthVal := by
  show ∀ v : ℚ, -(2 : ℚ) ^ 31 - 1 < v → v < (2 : ℚ) ^ 31 →
    (0 ≤ v → ((eighthEnv.toInt v : Int) : ℚ) ≤ v ∧ v < ((eighthEnv.toInt v : Int) : ℚ) + 1) ∧
    (v ≤ 0 → v ≤ ((eighthEnv.toInt v : Int) : ℚ) ∧ ((eighthEnv.toInt v : Int) : ℚ) - 1 < v)
  intro v h1 h2
  rw [eighthEnv_toInt v h1 h2]
  constructor
  · intro h
    rw [if_pos h]
    exact ⟨Int.floor_le v, Int.lt_floor_add_one v⟩
  · intro h
    by_cases h0 : 0 ≤ v
    · have hv : v = 0 := le_antisymm h h0
      subst hv
      simp
    · rw [if_neg h0]
      refine ⟨Int.le_ceil v, ?_⟩
      have := Int.ceil_lt_add_one v
      linarith

theorem eighthEnv_hookXVal (c : Int) (radius number i : Nat) :
    eighthVal (eighthEnv.hookXVal c radius number i) =
      (c : ℚ) + (radius : ℚ) * cosEighth ⌊((8 / number : Nat) : ℚ) * (i : ℚ)⌋.toNat := rfl

theorem eighthEnv_hookYVal (c : Int) (radius number i : Nat) :
    eighthVal (eighthEnv.hookYVal c radius number i) =
      (c : ℚ) + (radius : ℚ) * sinEighth ⌊((8 / number : Nat) : ℚ) * (i : ℚ)⌋.toNat := rfl

theorem calcHooks_getElem? (F : FloatEnv) (number : Nat) (center : Point) (radius i : Nat)
    (hi : i < number) :
    (calcHooks F number center radius)[i]? =
      some (Point.mk (F.toInt (F.hookXVal center.x radius number i))
        (F.toInt (F.hookYVal center.y radius number i))) := by
  simp [calcHooks, List.getElem?_range hi, hookX_eq_toInt, hookY_eq_toInt]

theorem toInt_eq_four (F : FloatEnv) (val : F.Val → ℚ) (htr : F.Truncates val) (v : F.Val)
    (h1 : 9 / 2 < val v) (h2 : val v < 5) : F.toInt v = 4 := by
  have hp : (2 : ℚ) ^ 31 = 2147483648 := by norm_num
  obtain ⟨ha, hb⟩ := (htr v (by rw [hp]; linarith) (by rw [hp]; linarith)).1 (by linarith)
  have h3 : ((F.toInt v : Int) : ℚ) < 5 := by linarith
  have h4 : (3 : ℚ) < ((F.toInt v : Int) : ℚ) := by linarith
  have h5 : F.toInt v < 5 := by exact_mod_cast h3
  have h6 : 3 < F.toInt v := by exact_mod_cast h4
  omega

theorem eighthEnv_sample_values :
    eighthVal (eighthEnv.hookXVal 0 7 8 1) = 49497 / 10000 ∧
    eighthVal (eighthEnv.hookYVal 0 7 8 1) = 49497 / 10000 := by
  constructor
  · rw [eighthEnv_hookXVal]; norm_num [cosEighth]
  · rw [eighthEnv_hookYVal]; norm_num [cosEighth, sinEighth]

/-- C16 (as stated, refuted): for `count = 8`, `center = (0, 0)`, `radius = 7` and `i = 1`
the `float` values `7 * cos t` and `7 * sin t` lie between `4.5` and `5` (they are about
`4.95`).  Whenever the conversion to `int` truncates, hook `1` is `(4, 4)`: neither
coordinate is the nearest integer `5`, and the squared distance `32` to the centre is below
`(7 - 1) ^ 2`, so the hook is more than `1` away from the circle. -/
theorem calcHooks_truncates_not_rounds :
    (eighthEnv.Truncates eighthVal ∧
      9 / 2 < eighthVal (eighthEnv.hookXVal 0 7 8 1) ∧
      eighthVal (eighthEnv.hookXVal 0 7 8 1) < 5 ∧
      9 / 2 < eighthVal (eighthEnv.hookYVal 0 7 8 1) ∧
      eighthVal (eighthEnv.hookYVal 0 7 8 1) < 5) ∧
    ∀ (F : FloatEnv) (val : F.Val → ℚ), F.Truncates val →
      9 / 2 < val (F.hookXVal 0 7 8 1) → val (F.hookXVal 0 7 8 1) < 5 →
      9 / 2 < val (F.hookYVal 0 7 8 1) → val (F.hookYVal 0 7 8 1) < 5 →
      (calcHooks F 8 ⟨0, 0⟩ 7)[1]? = some ⟨4, 4⟩ ∧
      |val (F.hookXVal 0 7 8 1) - 5| < 1 / 2 ∧ |val (F.hookYVal 0 7 8 1) - 5| < 1 / 2 ∧
      (4 - 0) * (4 - 0) + (4 - 0) * (4 - 0) < ((7 : Int) - 1) * (7 - 1) := by
  refine ⟨⟨eighthEnv_truncates, ?_, ?_, ?_, ?_⟩, ?_⟩
  · rw [eighthEnv_sample_values.1]; norm_num
  · rw [eighthEnv_sample_values.1]; norm_num
  · rw [eighthEnv_sample_values.2]; norm_num
  · rw [eighthEnv_sample_values.2]; norm_num
  · intro F val htr hx1 hx2 hy1 hy2
    refine ⟨?_, ?_, ?_, by decide⟩
    · rw [calcHooks_getElem? F 8 ⟨0, 0⟩ 7 1 (by decide)]
      simp only [toInt_eq_four F val htr _ hx1 hx2, toInt_eq_four F val htr _ hy1 hy2]
    · rw [abs_lt]; constructor <;> linarith
    · rw [abs_lt]; constructor <;> linarith

theorem truncation_bounds (F : FloatEnv) (val : F.Val → ℚ) (htr : F.Truncates val)
    (v : F.Val) (h1 : -(2 : ℚ) ^ 31 - 1 < val v) (h2 : val v < (2 : ℚ) ^ 31) :
    |val v - ((F.toInt v : Int) : ℚ)| < 1 ∧ |((F.toInt v : Int) : ℚ)| ≤ |val v| ∧
      -2 ^ 31 ≤ F.toInt v ∧ F.toInt v < 2 ^ 31 := by
  have hp : (2 : ℚ) ^ 31 = 2147483648 := by norm_num
  rw [hp] at h1 h2
  rcases le_total 0 (val v) with h | h
  · obtain ⟨ha, hb⟩ := (htr v (by rw [hp]; exact h1) (by rw [hp]; exact h2)).1 h
    have h3 : (-1 : ℚ) < ((F.toInt v : Int) : ℚ) := by linarith
    have h5 : (0 : Int) ≤ F.toInt v := by
      have : (-1 : Int) < F.toInt v := by exact_mod_cast h3
      omega
    have h4 : (0 : ℚ) ≤ ((F.toInt v : Int) : ℚ) := by exact_mod_cast h5
    have h6 : ((F.toInt v : Int) : ℚ) < 2147483648 := by linarith
    have h7 : F.toInt v < 2147483648 := by exact_mod_cast h6
    refine ⟨by rw [abs_lt]; constructor <;> linarith, ?_, by omega, by omega⟩
    rw [abs_of_nonneg h4, abs_of_nonneg h]
    exact ha
  · obtain ⟨ha, hb⟩ := (htr v (by rw [hp]; exact h1) (by rw [hp]; exact h2)).2 h
    have h3 : ((F.toInt v : Int) : ℚ) < 1 := by linarith
    have h5 : F.toInt v ≤ 0 := by
      have : F.toInt v < 1 := by exact_mod_cast h3
      omega
    have h4 : ((F.toInt v : Int) : ℚ) ≤ 0 := by exact_mod_cast h5
    have h6 : (-2147483649 : ℚ) < ((F.toInt v : Int) : ℚ) := by linarith
    have h7 : (-2147483649 : Int) < F.toInt v := by exact_mod_cast h6
    refine ⟨by rw [abs_lt]; constructor <;> linarith, ?_, by omega, by omega⟩
    rw [abs_of_nonpos h4, abs_of_nonpos h]
    linarith

/-- C16 (amended): for `i < count`, whenever the `float` values of `center + radius * cos t`
and `center + radius * sin t`, `t = angle * i`, lie in the range of `int` (strictly between
`-2 ^ 31 - 1` and `2 ^ 31`), each coordinate of hook `i` is that value converted to `int` by
truncation toward zero: it differs from the value by less than `1`, is not larger in
absolute value, and is a 32-bit `int`. -/
theorem calcHooks_coordinates_truncated (F : FloatEnv) (val : F.Val → ℚ)
    (htr : F.Truncates val) (count : Nat) (center : Point) (radius i : Nat) (hi : i < count)
    (hxr : -(2 : ℚ) ^ 31 - 1 < val (F.hookXVal center.x radius count i) ∧
      val (F.hookXVal center.x radius count i) < (2 : ℚ) ^ 31)
    (hyr : -(2 : ℚ) ^ 31 - 1 < val (F.hookYVal center.y radius count i) ∧
      val (F.hookYVal center.y radius count i) < (2 : ℚ) ^ 31) :
    ∃ p : Point, (calcHooks F count center radius)[i]? = some p ∧
      p.x = F.toInt (F.hookXVal center.x radius count i) ∧
      p.y = F.toInt (F.hookYVal center.y radius count i) ∧
      |val (F.hookXVal center.x radius count i) - (p.x : ℚ)| < 1 ∧
      |val (F.hookYVal center.y radius count i) - (p.y : ℚ)| < 1 ∧
      |(p.x : ℚ)| ≤ |val (F.hookXVal center.x radius count i)| ∧
      |(p.y : ℚ)| ≤ |val (F.hookYVal center.y radius count i)| ∧
      (-2 ^ 31 ≤ p.x ∧ p.x < 2 ^ 31) ∧ (-2 ^ 31 ≤ p.y ∧ p.y < 2 ^ 31) := by
  obtain ⟨a1, a2, a3, a4⟩ := truncation_bounds F val htr _ hxr.1 hxr.2
  obtain ⟨b1, b2, b3, b4⟩ := truncation_bounds F val htr _ hyr.1 hyr.2
  exact ⟨_, calcHooks_getElem? F count center radius i hi, rfl, rfl, a1, b1, a2, b2,
    ⟨a3, a4⟩, ⟨b3, b4⟩⟩

theorem eighthEnv_sample_range :
    (-(2 : ℚ) ^ 31 - 1 < eighthVal (eighthEnv.hookXVal 0 7 8 1) ∧
      eighthVal (eighthEnv.hookXVal 0 7 8 1) < (2 : ℚ) ^ 31) ∧
    (-(2 : ℚ) ^ 31 - 1 < eighthVal (eighthEnv.hookYVal 0 7 8 1) ∧
      eighthVal (eighthEnv.hookYVal 0 7 8 1) < (2 : ℚ) ^ 31) := by
  rw [eighthEnv_sample_values.1, eighthEnv_sample_values.2]
  norm_num

theorem calcHooks_coordinates_truncated_witness :
    eighthEnv.Truncates eighthVal ∧ 1 < 8 ∧
    ((-(2 : ℚ) ^ 31 - 1 < eighthVal (eighthEnv.hookXVal 0 7 8 1) ∧
      eighthVal (eighthEnv.hookXVal 0 7 8 1) < (2 : ℚ) ^ 31) ∧
    (-(2 : ℚ) ^ 31 - 1 < eighthVal (eighthEnv.hookYVal 0 7 8 1) ∧
      eighthVal (eighthEnv.hookYVal 0 7 8 1) < (2 : ℚ) ^ 31)) ∧
    ∃ p : Point, (calcHooks eighthEnv 8 ⟨0, 0⟩ 7)[1]? = some p ∧
      p.x = eighthEnv.toInt (eighthEnv.hookXVal 0 7 8 1) ∧
      p.y = eighthEnv.toInt (eighthEnv.hookYVal 0 7 8 1) ∧
      |eighthVal (eighthEnv.hookXVal 0 7 8 1) - (p.x : ℚ)| < 1 ∧
      |eighthVal (eighthEnv.hookYVal 0 7 8 1) - (p.y : ℚ)| < 1 ∧
      |(p.x : ℚ)| ≤ |eighthVal (eighthEnv.hookXVal 0 7 8 1)| ∧
      |(p.y : ℚ)| ≤ |eighthVal (eighthEnv.hookYVal 0 7 8 1)| ∧
      (-2 ^ 31 ≤ p.x ∧ p.x < 2 ^ 31) ∧ (-2 ^ 31 ≤ p.y ∧ p.y < 2 ^ 31) :=
  ⟨eighthEnv_truncates, by decide, eighthEnv_sample_range,
    calcHooks_coordinates_truncated eighthEnv eighthVal eighthEnv_truncates 8 ⟨0, 0⟩ 7 1
      (by decide) eighthEnv_sample_range.1 eighthEnv_sample_range.2⟩

/-- Outside the range of `int` the conversion does not truncate: in `eighthEnv`, which gives
`-2 ^ 31` for such a value, `calcHooks(1, (2147483647, 0), 1)` stores `-2147483648` in
`hook.x` for the value `2147483648`. -/
theorem eighthEnv_hook_out_of_range :
    eighthVal (eighthEnv.hookXVal 2147483647 1 1 0) = 2147483648 ∧
    (calcHooks eighthEnv 1 ⟨2147483647, 0⟩ 1).head? = some ⟨-2147483648, 0⟩ := by
  have hx : eighthVal (eighthEnv.hookXVal 2147483647 1 1 0) = 2147483648 := by
    rw [eighthEnv_hookXVal]; norm_num [cosEighth]
  have hy : eighthVal (eighthEnv.hookYVal 0 1 1 0) = 0 := by
    rw [eighthEnv_hookYVal]; norm_num [cosEighth, sinEighth]
  refine ⟨hx, ?_⟩
  rw [calcHooks_head eighthEnv 1 ⟨2147483647, 0⟩ 1 (by decide), hookX_eq_toInt, hookY_eq_toInt]
  have tx : eighthEnv.toInt (eighthEnv.hookXVal 2147483647 1 1 0) = -2147483648 := by
    show (if -(2 : ℚ) ^ 31 - 1 < eighthVal (eighthEnv.hookXVal 2147483647 1 1 0) ∧
      eighthVal (eighthEnv.hookXVal 2147483647 1 1 0) < (2 : ℚ) ^ 31 then _ else -2 ^ 31) = _
    rw [hx]; norm_num
  have ty : eighthEnv.toInt (eighthEnv.hookYVal 0 1 1 0) = 0 := by
    have h0 : eighthEnv.toInt (eighthEnv.hookYVal 0 1 1 0) =
        eighthEnv.toInt (eighthVal (eighthEnv.hookYVal 0 1 1 0)) := rfl
    rw [h0, hy]
    have h := eighthEnv_toInt 0 (by norm_num) (by norm_num)
    simpa using h
  rw [tx]
  show some (Point.mk (-2147483648) (eighthEnv.toInt (eighthEnv.hookYVal 0 1 1 0))) = _
  rw [ty]

end Knitter
